import Mathlib

/-!
Verification of the schema-inference and record-normalization core of the
eventnative repository (`schema/processor.go`, `events/enricher.go`).

The Go code is shallowly embedded: `map[string]interface{}` values become
association lists over an inductive `Value` type, fallible Go calls become
`Except`, and a Go `panic` (failed type assertion) becomes an explicit
`crash` outcome.  External collaborators that live in other packages of the
repository (the field mapper, flattener, enrichment rules, the `typing`
package, `time.Parse`, the compiled `text/template`) are parameters of a
context structure `ProcCtx`: the theorems below hold for every choice of
collaborators, exactly as `processor.go` is parametric in them.

A second, heap-based embedding at the end of the file models Go's reference
semantics for maps (addresses into a heap of objects); it is used for the
frame property "the per-object pipeline never mutates the caller-supplied
input record", which is about aliasing and in-place mutation.
-/

namespace EventNative

/-- A JSON-like runtime value, mirroring the `interface{}` values the
processor manipulates.  `time` is the parsed `time.Time` value that
`tableNameExtractFunc` temporarily substitutes for the timestamp string. -/
inductive Value where
  | str  : String → Value
  | int  : Int → Value
  | bool : Bool → Value
  | null : Value
  | time : Nat → Value
  | obj  : List (String × Value) → Value
  | arr  : List Value → Value

/-- A Go `map[string]interface{}`, embedded as an association list. -/
abbrev Obj := List (String × Value)

/-- Go map read `o[k]` (with the `ok` flag encoded as `Option`). -/
def lookupObj : Obj → String → Option Value
  | [], _ => none
  | (k', v) :: rest, k => if k' = k then some v else lookupObj rest k

/-- Go map write `o[k] = v`: replaces the first binding of `k`, or appends
a new binding when `k` is absent. -/
def setObj : Obj → String → Value → Obj
  | [], k, v => [(k, v)]
  | (k', v') :: rest, k, v =>
    if k' = k then (k, v) :: rest else (k', v') :: setObj rest k v

/-- An abstract semantic data type tag.  The concrete taxonomy is owned by
the external `typing` package, so the tag is opaque to the processor. -/
abbrev DataType := Nat

/-- `schema.Column`: a resolved data type for one field. -/
structure Column where
  dataType : DataType
deriving DecidableEq

/-- `schema.NewColumn`. -/
def NewColumn (t : DataType) : Column := ⟨t⟩

/-- `schema.Columns`: the column map of a table. -/
abbrev Columns := List (String × Column)

/-- Go map read on a `Columns` value. -/
def lookupCols : Columns → String → Option Column
  | [], _ => none
  | (k', c) :: rest, k => if k' = k then some c else lookupCols rest k

/-- Go map write on a `Columns` value. -/
def setCols : Columns → String → Column → Columns
  | [], k, c => [(k, c)]
  | (k', c') :: rest, k, c =>
    if k' = k then (k, c) :: rest else (k', c') :: setCols rest k c

/-- The names of the columns of a table. -/
def colNames (cols : Columns) : List String := cols.map Prod.fst

/-- Modelled from the spec: `Columns.Merge` lives in the `schema` package
but outside the provided sources.  Per §4.4 of the spec the merge is a
monotone union of column names with one deterministic type policy; we model
the first-seen-type policy: a column already present keeps its type, a new
column name is added with its observed type. -/
def mergeColumns (c other : Columns) : Columns :=
  other.foldl
    (fun acc kv =>
      match lookupCols acc kv.1 with
      | some _ => acc
      | none => acc ++ [kv])
    c

/-- `schema.Table`. -/
structure Table where
  name : String
  columns : Columns
  pkFields : List String

/-- Modelled from the spec: `Table.Exists` lives outside the provided
sources; per §3 of the spec a table "does not exist" when it has zero
columns (a nil table in Go also reports false). -/
def Table.existsB (t : Table) : Bool := !t.columns.isEmpty

/-- `schema.ProcessedFile`. -/
structure ProcessedFile where
  fileName : String
  dataSchema : Table
  payload : List Obj

/-- `events.FailedFact`. -/
structure FailedFact where
  event : String
  error : String
  eventId : String

/-- Modelled from the spec: `timestamp.Key`, the well-known timestamp field
name, is defined in the `timestamp` package outside the provided sources;
the spec's scenarios use `_timestamp`. -/
def timestampKey : String := "_timestamp"

/-- The literal placeholder Go's `text/template` renders for a missing
value, post-processed away at line 67 of processor.go. -/
def noValuePlaceholder : String := "<no value>"

/-- Replace every non-overlapping occurrence of `pattern` in the input,
scanning left to right, with at most `fuel` scanning steps: the embedding
of Go's `strings.ReplaceAll` for the non-empty patterns the processor uses
(a fuel equal to the input length makes every step exact, since each step
consumes at least one character). -/
def replaceFuel (pattern repl : List Char) : Nat → List Char → List Char
  | 0, l => l
  | _ + 1, [] => []
  | fuel + 1, c :: rest =>
    if pattern.isPrefixOf (c :: rest) && !pattern.isEmpty then
      repl ++ replaceFuel pattern repl fuel ((c :: rest).drop pattern.length)
    else
      c :: replaceFuel pattern repl fuel rest

/-- Go `strings.ReplaceAll` on strings (for non-empty patterns). -/
def goReplaceAll (pattern repl s : String) : String :=
  String.mk (replaceFuel pattern.data repl.data s.data.length s.data)

/-- Go `strings.ToLower` (character-wise lowercasing). -/
def goToLower (s : String) : String :=
  String.mk (s.data.map Char.toLower)

/-- `line[:len(line)-1]`: drop the final byte of a line (its terminator,
a one-byte character). -/
def dropLastByte (s : String) : String :=
  String.mk s.data.dropLast

/-- The collaborators and configuration `Processor` is built from.  Each
field models an external function exactly at its interface:
`timeParse` is `time.Parse(timestamp.Layout, ·)`, `tmplExec` is the
compiled template's `Execute`, `rules` the enrichment rules (name and
execute), `mapperMap` the field mapper, `flatten` the flattener,
`convert`/`typeFromValue`/`reformatValue`/`stringFromType`/`defaultTypes`
the `typing` package, `extractEventId` is `events.ExtractEventId`. -/
structure ProcCtx where
  timeParse : String → Except String Nat
  tmplExec : Obj → Except String String
  tableNameExpression : String
  rules : List (String × (Obj → Except String Obj))
  mapperMap : Obj → Except String Obj
  flatten : Obj → Except String Obj
  typeCasts : List (String × DataType)
  defaultTypes : List (String × DataType)
  convert : DataType → Value → Except String Value
  typeFromValue : Value → Except String DataType
  stringFromType : DataType → Except String String
  reformatValue : Value → Value
  pkFields : List String
  extractEventId : Obj → String

/-- Go map read on the configured type-cast maps. -/
def lookupType : List (String × DataType) → String → Option DataType
  | [], _ => none
  | (k', t) :: rest, k => if k' = k then some t else lookupType rest k

/-- Error message of processor.go line 50. -/
def errTsMissing : String :=
  "Error extracting table name: " ++ timestampKey ++ " field does not exist"

/-- Error message of processor.go line 54. -/
def errTsMalformed (e : String) : String :=
  "Error extracting table name: malformed " ++ timestampKey ++ " field: " ++ e

/-- Error message of processor.go line 60. -/
def errTmpl (expr e : String) : String :=
  "Error executing " ++ expr ++ " template: " ++ e

/-- Outcome of `tableNameExtractFunc`: the name or the error, together with
the record as the caller sees it after the call (the function mutates the
record in place), or a Go panic (`crash`) from the unchecked type
assertion `ts.(string)` at line 52. -/
inductive ExtractRes where
  | ok (name : String) (object : Obj)
  | err (msg : String) (object : Obj)
  | crash

/-- `tableNameExtractFunc` (processor.go lines 46–71): look up the
timestamp field, assert it is a string (a non-string panics), parse it,
substitute the parsed time value, render the template, restore the string,
post-process the rendered text.  Note that the restore at line 64 is not
executed on the template-error return at line 60. -/
def tableNameExtract (ctx : ProcCtx) (object : Obj) : ExtractRes :=
  match lookupObj object timestampKey with
  | none => .err errTsMissing object
  | some ts =>
    match ts with
    | .str s =>
      match ctx.timeParse s with
      | .error e => .err (errTsMalformed e) object
      | .ok t =>
        let object1 := setObj object timestampKey (.time t)
        match ctx.tmplExec object1 with
        | .error e => .err (errTmpl ctx.tableNameExpression e) object1
        | .ok rendered =>
          let object2 := setObj object1 timestampKey ts
          let formatted := goReplaceAll noValuePlaceholder "null" rendered
          let reformatted := goReplaceAll " " "_" formatted
          .ok (goToLower reformatted) object2
    | _ => .crash

/-- Outcome of a fallible Go call that can also panic. -/
inductive Res (α : Type) where
  | ok (a : α)
  | err (e : String)
  | crash

/-- Error message of processor.go line 243. -/
def errFieldType (k e : String) : String :=
  "Error getting type of field [" ++ k ++ "]: " ++ e

/-- Error message of processor.go line 250. -/
def errDefaultConvert (k e : String) : String :=
  "Error default converting field [" ++ k ++ "]: " ++ e

/-- Error message of processor.go line 265. -/
def errCastConvert (k strType e : String) : String :=
  "Error converting field [" ++ k ++ "] to [" ++ strType ++ "]: " ++ e

/-- Error message of processor.go line 210. -/
def errRule (name e : String) : String :=
  "Error executing enrichment rule: [" ++ name ++ "]: " ++ e

/-- Error message of processor.go line 216. -/
def errMapping (e : String) : String :=
  "Error mapping object: " ++ e

/-- Error message of processor.go line 226. -/
def errExtract (expr e : String) : String :=
  "Error extracting table name. Template: " ++ expr ++ ": " ++ e

/-- Error message of processor.go line 229. -/
def errUnknownTable (expr : String) : String :=
  "Unknown table name. Template: " ++ expr

/-- The rendering of `typing.StringFromType` used at lines 261–264: on a
lookup failure the error text itself is used as the type name. -/
def typeStringOf (ctx : ProcCtx) (t : DataType) : String :=
  match ctx.stringFromType t with
  | .ok s => s
  | .error e => e

/-- One iteration of the typecast loop of `processObject` (processor.go
lines 236–272) for field `k` with raw value `v`: reformat the value, infer
its natural type, then apply the default typecast and the mapping typecast
in that order (the mapping typecast converts the reformatted value `v`,
not the default-converted one, and overrides the resolved type). -/
def processField (ctx : ProcCtx) (k : String) (v : Value) :
    Except String (DataType × Value) :=
  let v := ctx.reformatValue v
  match ctx.typeFromValue v with
  | .error e => .error (errFieldType k e)
  | .ok natural =>
    let afterDefault : Except String (DataType × Value) :=
      match lookupType ctx.defaultTypes k with
      | none => .ok (natural, v)
      | some defaultType =>
        match ctx.convert defaultType v with
        | .error e => .error (errDefaultConvert k e)
        | .ok converted => .ok (defaultType, converted)
    match afterDefault with
    | .error e => .error e
    | .ok (t1, v1) =>
      match lookupType ctx.typeCasts k with
      | none => .ok (t1, v1)
      | some toType =>
        match ctx.convert toType v with
        | .error e => .error (errCastConvert k (typeStringOf ctx toType) e)
        | .ok converted => .ok (toType, converted)

/-- The whole typecast loop of `processObject` (processor.go lines
236–273): fold `processField` over the flattened record, assembling the
column map and the converted record; the first field failure aborts. -/
def processObjectFields (ctx : ProcCtx) :
    List (String × Value) → Except String (Columns × Obj)
  | [] => .ok ([], [])
  | (k, v) :: rest =>
    match processField ctx k v with
    | .error e => .error e
    | .ok (t, v') =>
      match processObjectFields ctx rest with
      | .error e => .error e
      | .ok (cols, rest') => .ok ((k, NewColumn t) :: cols, (k, v') :: rest')

/-- Modelled from the spec: `maputils.CopyMap` lives outside the provided
sources; per §4.2 step 1 of the spec it deep-copies the input record.  In
this pure value model a value is its own deep copy (the heap model at the
end of the file captures the aliasing content of the copy). -/
def copyMapPure (o : Obj) : Obj := o

/-- The enrichment-rule loop of `processObject` (processor.go lines
207–212): run each rule in order, aborting on the first failure with the
failing rule's name. -/
def runRules : List (String × (Obj → Except String Obj)) → Obj →
    Except (String × String) Obj
  | [], o => .ok o
  | (n, f) :: rest, o =>
    match f o with
    | .error e => .error (n, e)
    | .ok o' => runRules rest o'

/-- `Processor.processObject` (processor.go lines 205–276): copy, enrich,
map, flatten, extract the table name, then run the typecast loop. -/
def processObject (ctx : ProcCtx) (objectsss : Obj) : Res (Table × Obj) :=
  let objectCopy := copyMapPure objectsss
  match runRules ctx.rules objectCopy with
  | .error (n, e) => .err (errRule n e)
  | .ok enriched =>
    match ctx.mapperMap enriched with
    | .error e => .err (errMapping e)
    | .ok mappedObject =>
      match ctx.flatten mappedObject with
      | .error e => .err e
      | .ok flatObject =>
        match tableNameExtract ctx flatObject with
        | .crash => .crash
        | .err e _ => .err (errExtract ctx.tableNameExpression e)
        | .ok tableName flatObject2 =>
          if tableName = "" then .err (errUnknownTable ctx.tableNameExpression)
          else
            match processObjectFields ctx flatObject2 with
            | .error e => .err e
            | .ok (cols, flat') =>
              .ok (⟨tableName, cols, ctx.pkFields⟩, flat')

/-- `Processor.ProcessFact` (processor.go lines 85–87). -/
def ProcessFact (ctx : ProcCtx) (fact : Obj) : Res (Table × Obj) :=
  processObject ctx fact

/-- Go map read on the per-table result map. -/
def pfLookup : List (String × ProcessedFile) → String → Option ProcessedFile
  | [], _ => none
  | (k', f) :: rest, k => if k' = k then some f else pfLookup rest k

/-- Go map write on the per-table result map. -/
def pfSet : List (String × ProcessedFile) → String → ProcessedFile →
    List (String × ProcessedFile)
  | [], k, f => [(k, f)]
  | (k', f') :: rest, k, f =>
    if k' = k then (k, f) :: rest else (k', f') :: pfSet rest k f

/-- The grouping step shared by `ProcessObjects` (lines 153–164) and
`ProcessFilePayload` (lines 121–130): skip a non-existing (empty) table,
otherwise create a new `ProcessedFile` or merge the table's columns into
the existing one and append the processed object to its payload. -/
def stepGroup (fileName : String) (acc : List (String × ProcessedFile))
    (table : Table) (po : Obj) : List (String × ProcessedFile) :=
  if table.existsB then
    match pfLookup acc table.name with
    | none => pfSet acc table.name ⟨fileName, table, [po]⟩
    | some f =>
      pfSet acc table.name
        ⟨f.fileName,
         ⟨f.dataSchema.name, mergeColumns f.dataSchema.columns table.columns,
          f.dataSchema.pkFields⟩,
         f.payload ++ [po]⟩
  else acc

/-- The loop of `ProcessObjects` (processor.go lines 147–165). -/
def processLoop (ctx : ProcCtx) :
    List Obj → List (String × ProcessedFile) →
    Res (List (String × ProcessedFile))
  | [], acc => .ok acc
  | o :: rest, acc =>
    match processObject ctx o with
    | .crash => .crash
    | .err e => .err e
    | .ok (table, po) => processLoop ctx rest (stepGroup "" acc table po)

/-- `Processor.ProcessObjects` (processor.go lines 144–168): fail-fast
batch processing; an error return in Go comes with a nil result map, which
`Res.err` models. -/
def ProcessObjects (ctx : ProcCtx) (objects : List Obj) :
    Res (List (String × ProcessedFile)) :=
  processLoop ctx objects []

/-- The line splitter of `ProcessFilePayload`: `bufio.Reader.ReadBytes`
cuts the payload at each line-terminator byte, returning each terminated
line including its terminator; a final chunk not followed by a terminator
is returned together with `io.EOF`.  The first component is the list of
terminated lines, the second the unterminated trailing chunk. -/
def readLinesAux : List Char → List Char → List (List Char) × List Char
  | [], acc => ([], acc.reverse)
  | c :: rest, acc =>
    if c = '\n' then
      let p := readLinesAux rest []
      ((acc.reverse ++ [c]) :: p.1, p.2)
    else readLinesAux rest (c :: acc)

/-- Split a payload into its terminated lines and its trailing chunk. -/
def readLines (payload : String) : List String × String :=
  let p := readLinesAux payload.data []
  (p.1.map (fun cs => String.mk cs), String.mk p.2)

/-- The loop of `ProcessFilePayload` (processor.go lines 99–136), running
over the terminated lines: a parse failure is fatal; a processing failure
is fatal when `breakOnError` is set and otherwise appends a `FailedFact`
built from the line minus its final byte, the error message, and the
best-effort event id of the parsed object; since on the error path the
returned table is Go `nil` (which does not exist), grouping is skipped. -/
def fileLoop (ctx : ProcCtx) (fileName : String) (breakOnError : Bool)
    (parseFunc : String → Except String Obj) :
    List String → List (String × ProcessedFile) → List FailedFact →
    Res (List (String × ProcessedFile) × List FailedFact)
  | [], acc, facts => .ok (acc, facts)
  | line :: rest, acc, facts =>
    match parseFunc line with
    | .error e => .err e
    | .ok object =>
      match processObject ctx object with
      | .crash => .crash
      | .err e =>
        if breakOnError then .err e
        else
          fileLoop ctx fileName breakOnError parseFunc rest acc
            (facts ++ [⟨dropLastByte line, e, ctx.extractEventId object⟩])
      | .ok (table, po) =>
        fileLoop ctx fileName breakOnError parseFunc rest
          (stepGroup fileName acc table po) facts

/-- `Processor.ProcessFilePayload` (processor.go lines 92–139).  The loop
`for readErr == nil` only runs for lines whose read found a terminator, so
the unterminated trailing chunk (returned by `ReadBytes` together with
`io.EOF`) is never processed; reading an in-memory buffer can produce no
read error other than `io.EOF`. -/
def ProcessFilePayload (ctx : ProcCtx) (fileName : String) (payload : String)
    (breakOnError : Bool) (parseFunc : String → Except String Obj) :
    Res (List (String × ProcessedFile) × List FailedFact) :=
  fileLoop ctx fileName breakOnError parseFunc (readLines payload).1 [] []

/-- Modelled from the spec: the destination-typing error is tagged with the
field name and target type (§4.5, §7(f)); the Go message at line 190 embeds
`column.GetType()`, the field name and the value.  A field absent from the
destination schema is the zero `Column`, whose conversion fails (spec:
"A field's absence from the destination schema ... aborts the whole call
with a field-qualified error"). -/
def errApplyMissing (k : String) : String :=
  "Error applying DB type to input [" ++ k ++ "] field: no such column"

/-- The conversion-failure message of processor.go line 190. -/
def errApplyConvert (ctx : ProcCtx) (t : DataType) (k e : String) : String :=
  "Error applying DB type [" ++ typeStringOf ctx t ++ "] to input [" ++ k ++
    "] field: " ++ e

/-- One iteration of `ApplyDBTypingToObject` (processor.go lines 186–193)
for field `k` with value `v`: look the field up in the destination schema
and convert the value to the column's type.  The absent-column branch is
modelled from the spec (the `Columns` map and `typing.Convert` live outside
the provided sources; per §4.5 absence aborts with a field-qualified
error). -/
def applyDBRow (ctx : ProcCtx) (dbSchema : Table) (k : String) (v : Value) :
    Except String Value :=
  match lookupCols dbSchema.columns k with
  | none => .error (errApplyMissing k)
  | some column =>
    match ctx.convert column.dataType v with
    | .error e => .error (errApplyConvert ctx column.dataType k e)
    | .ok converted => .ok converted

/-- `Processor.ApplyDBTypingToObject` (processor.go lines 185–196): convert
every field of the record to the destination column's type, in place; the
first failure aborts. -/
def ApplyDBTypingToObject (ctx : ProcCtx) (dbSchema : Table) :
    Obj → Except String Obj
  | [] => .ok []
  | (k, v) :: rest =>
    match applyDBRow ctx dbSchema k v with
    | .error e => .error e
    | .ok converted =>
      match ApplyDBTypingToObject ctx dbSchema rest with
      | .error e => .error e
      | .ok rest' => .ok ((k, converted) :: rest')

/-- The loop of `ApplyDBTyping` over the file's payload. -/
def applyAllObjects (ctx : ProcCtx) (dbSchema : Table) :
    List Obj → Except String (List Obj)
  | [] => .ok []
  | o :: rest =>
    match ApplyDBTypingToObject ctx dbSchema o with
    | .error e => .error e
    | .ok o' =>
      match applyAllObjects ctx dbSchema rest with
      | .error e => .error e
      | .ok rest' => .ok (o' :: rest')

/-- `Processor.ApplyDBTyping` (processor.go lines 172–180): coerce every
record of the file, aborting on the first failing record. -/
def ApplyDBTyping (ctx : ProcCtx) (dbSchema : Table) (pf : ProcessedFile) :
    Except String (List Obj) :=
  applyAllObjects ctx dbSchema pf.payload

/-- `events` package constant `eventnKey` (enricher.go line 4). -/
def eventnKey : String := "eventn_ctx"

/-- `events` package constant `eventIdKey` (enricher.go line 5). -/
def eventIdKey : String := "event_id"

/-- `events.EnrichWithEventId` (enricher.go lines 9–23): create an
`eventn_ctx` map holding the id when none exists; write the id into an
existing `eventn_ctx` map only when it holds no `event_id` yet (the Go
code mutates the nested map in place, which the pure model renders by
writing the updated nested map back under the same key, preserving the
aliasing-visible contents); when `eventn_ctx` exists but is not a map,
write the id under the top-level key `eventn_ctx_event_id`. -/
def EnrichWithEventId (object : Obj) (eventId : String) : Obj :=
  match lookupObj object eventnKey with
  | none => setObj object eventnKey (.obj [(eventIdKey, .str eventId)])
  | some eventnObject =>
    match eventnObject with
    | .obj eventn =>
      match lookupObj eventn eventIdKey with
      | none =>
        setObj object eventnKey (.obj (setObj eventn eventIdKey (.str eventId)))
      | some _ => object
    | _ => setObj object (eventnKey ++ "_" ++ eventIdKey) (.str eventId)

/-- Folding the grouping step over a list of per-object results: the
reference shape of the per-table map both batch entry points build. -/
def groupResults (fileName : String) (rs : List (Table × Obj))
    (acc : List (String × ProcessedFile)) : List (String × ProcessedFile) :=
  rs.foldl (fun a r => stepGroup fileName a r.1 r.2) acc

/-- The successful per-object results of a batch, in input order. -/
def okResults (ctx : ProcCtx) (objects : List Obj) : List (Table × Obj) :=
  objects.filterMap
    (fun o => match processObject ctx o with | .ok r => some r | _ => none)

/-- The successful per-object results of a file payload's lines, in line
order. -/
def okResultsFile (ctx : ProcCtx) (parseFunc : String → Except String Obj)
    (lines : List String) : List (Table × Obj) :=
  lines.filterMap fun line =>
    match parseFunc line with
    | .error _ => none
    | .ok object =>
      match processObject ctx object with
      | .ok r => some r
      | _ => none

/-- The failed facts the lenient path of `ProcessFilePayload` is specified
to collect: for every line that parses but whose processing fails, the
line bytes minus the trailing terminator, the error message, and the
best-effort event id of the parsed object. -/
def specFailedFacts (ctx : ProcCtx) (parseFunc : String → Except String Obj)
    (lines : List String) : List FailedFact :=
  lines.filterMap fun line =>
    match parseFunc line with
    | .error _ => none
    | .ok object =>
      match processObject ctx object with
      | .err e => some ⟨dropLastByte line, e, ctx.extractEventId object⟩
      | _ => none

/-!
## Heap model

Go maps are references: `map[string]interface{}` values passed to the
pipeline alias the caller's data, and nested maps are shared.  To state the
frame property "`processObject` never mutates the caller-supplied input
record, including its nested mappings", objects are modelled as addresses
into a heap; a heap cell is a flat association list whose values are
scalars or references to other cells.
-/

/-- A heap value: a scalar or a reference to another heap cell. -/
inductive HVal where
  | str  : String → HVal
  | int  : Int → HVal
  | bool : Bool → HVal
  | null : HVal
  | time : Nat → HVal
  | ref  : Nat → HVal
deriving DecidableEq

/-- The contents of one heap cell: one Go map. -/
abbrev HObj := List (String × HVal)

/-- The heap: cell `a` is the map at index `a`; new maps are appended. -/
abbrev Heap := List HObj

/-- The cell at address `a` (a dangling address reads as empty). -/
def hcell (h : Heap) (a : Nat) : HObj := h.getD a []

/-- Association-list read on a heap cell. -/
def lookupH : HObj → String → Option HVal
  | [], _ => none
  | (k', v) :: rest, k => if k' = k then some v else lookupH rest k

/-- Association-list write on a heap cell. -/
def setH : HObj → String → HVal → HObj
  | [], k, v => [(k, v)]
  | (k', v') :: rest, k, v =>
    if k' = k then (k, v) :: rest else (k', v') :: setH rest k v

/-- Go map read `o[k]` through the heap. -/
def hlookup (h : Heap) (a : Nat) (k : String) : Option HVal :=
  lookupH (hcell h a) k

/-- Go map write `o[k] = v` through the heap: an in-place mutation visible
to every alias of address `a`. -/
def hset (h : Heap) (a : Nat) (k : String) (v : HVal) : Heap :=
  h.set a (setH (hcell h a) k v)

/-- The addresses a cell's values refer to. -/
def entryRefs (cell : HObj) : List Nat :=
  cell.filterMap (fun kv => match kv.2 with | .ref r => some r | _ => none)

/-- Reachability of heap cells: the cells of the object graph rooted at an
address (the object itself and its nested mappings). -/
inductive Reach (h : Heap) : Nat → Nat → Prop where
  | refl (a : Nat) : Reach h a a
  | step {a b c : Nat} : Reach h a b → c ∈ entryRefs (hcell h b) → Reach h a c

/-- Every cell of the object graph rooted at `a` lies at address `≥ n`. -/
def ReachHi (h : Heap) (a n : Nat) : Prop := ∀ b, Reach h a b → n ≤ b

/-- One copy pass over a cell's entries: scalars are copied as values,
references are deep-copied via `copyOne` (which allocates in the heap). -/
def copyEntries (copyOne : Heap → Nat → Heap × Nat) :
    Heap → HObj → Heap × HObj
  | h, [] => (h, [])
  | h, (k, v) :: rest =>
    match v with
    | .ref r =>
      let p := copyOne h r
      let q := copyEntries copyOne p.1 rest
      (q.1, (k, HVal.ref p.2) :: q.2)
    | w =>
      let q := copyEntries copyOne h rest
      (q.1, (k, w) :: q.2)

/-- Fuelled deep copy of the object at address `a`: copy every entry, deep
copying nested maps to fresh addresses, and allocate the copied cell.
Exhausted fuel degrades to an empty fresh cell (unreachable for the
acyclic, JSON-derived records this pipeline receives). -/
def copyMapF : Nat → Heap → Nat → Heap × Nat
  | 0, h, _ => (h ++ [[]], h.length)
  | fuel + 1, h, a =>
    let p := copyEntries (copyMapF fuel) h (hcell h a)
    (p.1 ++ [p.2], p.1.length)

/-- Modelled from the spec: `maputils.CopyMap` lives outside the provided
sources; per §4.2 step 1 of the spec it returns a deep copy of the input
record — a fresh object graph sharing no cell with the original.  A fuel
of one more than the heap size covers every acyclic object graph. -/
def copyMapH (h : Heap) (a : Nat) : Heap × Nat :=
  copyMapF (h.length + 1) h a

/-- The collaborators of the heap-level pipeline, mirroring `ProcCtx`.
Enrichment rules mutate the record in place (heap in, heap out); the
mapper and the flattener return a (possibly new) object address;
`tmplExecH` renders the template from the record read-only. -/
structure HCtx where
  timeParse : String → Except String Nat
  tmplExecH : Heap → Nat → Except String String
  tableNameExpression : String
  rulesH : List (String × (Heap → Nat → Heap × Option String))
  mapperH : Heap → Nat → Heap × Except String Nat
  flattenH : Heap → Nat → Heap × Except String Nat
  typeCasts : List (String × DataType)
  defaultTypes : List (String × DataType)
  convertH : DataType → HVal → Except String HVal
  typeFromValueH : HVal → Except String DataType
  stringFromTypeH : DataType → Except String String
  reformatH : HVal → HVal
  pkFields : List String
  extractEventIdH : Heap → Nat → String

/-- Outcome of a heap-level call that can fail or panic (the heap itself
is returned alongside, since mutations persist in every outcome). -/
inductive HRes (α : Type) where
  | ok (a : α)
  | err (e : String)
  | crash

/-- The rendering of `typing.StringFromType` at lines 261–264, heap
model. -/
def typeStringOfH (ctx : HCtx) (t : DataType) : String :=
  match ctx.stringFromTypeH t with
  | .ok s => s
  | .error e => e

/-- `tableNameExtractFunc` on the heap (processor.go lines 46–71): the
substitution and the restore are in-place writes to the flattened record's
cell; the restore is skipped on the template-error return. -/
def tableNameExtractH (ctx : HCtx) (h : Heap) (f : Nat) : Heap × HRes String :=
  match hlookup h f timestampKey with
  | none => (h, .err errTsMissing)
  | some ts =>
    match ts with
    | .str s =>
      match ctx.timeParse s with
      | .error e => (h, .err (errTsMalformed e))
      | .ok t =>
        let h1 := hset h f timestampKey (.time t)
        match ctx.tmplExecH h1 f with
        | .error e => (h1, .err (errTmpl ctx.tableNameExpression e))
        | .ok rendered =>
          let h2 := hset h1 f timestampKey ts
          (h2,
           .ok (goToLower (goReplaceAll " " "_"
             (goReplaceAll noValuePlaceholder "null" rendered))))
    | _ => (h, .crash)

/-- One iteration of the typecast loop of `processObject` on the heap
(lines 236–272) for field `k` with snapshot value `v`: write the
reformatted value back into the record's cell `f`, infer the natural type,
then apply the default and mapping typecasts, writing each converted value
back in place. -/
def processFieldH (ctx : HCtx) (f : Nat) (k : String) (v : HVal) (h : Heap) :
    Heap × Except String DataType :=
  let v0 := ctx.reformatH v
  let h0 := hset h f k v0
  match ctx.typeFromValueH v0 with
  | .error e => (h0, .error (errFieldType k e))
  | .ok natural =>
    let stepDefault : Heap × Except String DataType :=
      match lookupType ctx.defaultTypes k with
      | none => (h0, .ok natural)
      | some defaultType =>
        match ctx.convertH defaultType v0 with
        | .error e => (h0, .error (errDefaultConvert k e))
        | .ok converted => (hset h0 f k converted, .ok defaultType)
    match stepDefault with
    | (h1, .error e) => (h1, .error e)
    | (h1, .ok t1) =>
      match lookupType ctx.typeCasts k with
      | none => (h1, .ok t1)
      | some toType =>
        match ctx.convertH toType v0 with
        | .error e =>
          (h1, .error (errCastConvert k (typeStringOfH ctx toType) e))
        | .ok converted => (hset h1 f k converted, .ok toType)

/-- The typecast loop of `processObject` on the heap (lines 236–273): the
loop ranges over a snapshot of the flattened record's entries and writes
the reformatted and converted values back into the record's cell `f`. -/
def processFieldsLoopH (ctx : HCtx) (f : Nat) :
    List (String × HVal) → Heap → Heap × Except String Columns
  | [], h => (h, .ok [])
  | (k, v) :: rest, h =>
    match processFieldH ctx f k v h with
    | (h2, .error e) => (h2, .error e)
    | (h2, .ok t2) =>
      match processFieldsLoopH ctx f rest h2 with
      | (h3, .error e) => (h3, .error e)
      | (h3, .ok cols) => (h3, .ok ((k, NewColumn t2) :: cols))

/-- The enrichment-rule loop on the heap (lines 207–212). -/
def runRulesH : List (String × (Heap → Nat → Heap × Option String)) →
    Heap → Nat → Heap × Option (String × String)
  | [], h, _ => (h, none)
  | (n, r) :: rest, h, a =>
    let p := r h a
    match p.2 with
    | some e => (p.1, some (n, e))
    | none => runRulesH rest p.1 a

/-- `processObject` on the heap (lines 205–276): deep-copy the input
record, then run every later stage against the copy. -/
def processObjectH (ctx : HCtx) (h : Heap) (o : Nat) :
    Heap × HRes (Table × Nat) :=
  let c := copyMapH h o
  match runRulesH ctx.rulesH c.1 c.2 with
  | (h2, some (n, e)) => (h2, .err (errRule n e))
  | (h2, none) =>
    match ctx.mapperH h2 c.2 with
    | (h3, .error e) => (h3, .err (errMapping e))
    | (h3, .ok mapped) =>
      match ctx.flattenH h3 mapped with
      | (h4, .error e) => (h4, .err e)
      | (h4, .ok flat) =>
        match tableNameExtractH ctx h4 flat with
        | (h5, .crash) => (h5, .crash)
        | (h5, .err e) => (h5, .err (errExtract ctx.tableNameExpression e))
        | (h5, .ok tableName) =>
          if tableName = "" then
            (h5, .err (errUnknownTable ctx.tableNameExpression))
          else
            match processFieldsLoopH ctx flat (hcell h5 flat) h5 with
            | (h6, .error e) => (h6, .err e)
            | (h6, .ok cols) =>
              (h6, .ok (⟨tableName, cols, ctx.pkFields⟩, flat))

/-- `ProcessedFile` in the heap model: the payload is a list of object
addresses. -/
structure ProcessedFileH where
  fileName : String
  dataSchema : Table
  payload : List Nat

/-- Go map read on the heap-model per-table result map. -/
def pfLookupH : List (String × ProcessedFileH) → String → Option ProcessedFileH
  | [], _ => none
  | (k', f) :: rest, k => if k' = k then some f else pfLookupH rest k

/-- Go map write on the heap-model per-table result map. -/
def pfSetH : List (String × ProcessedFileH) → String → ProcessedFileH →
    List (String × ProcessedFileH)
  | [], k, f => [(k, f)]
  | (k', f') :: rest, k, f =>
    if k' = k then (k, f) :: rest else (k', f') :: pfSetH rest k f

/-- The grouping step on the heap model (pure: tables and address lists). -/
def stepGroupH (fileName : String) (acc : List (String × ProcessedFileH))
    (table : Table) (po : Nat) : List (String × ProcessedFileH) :=
  if table.existsB then
    match pfLookupH acc table.name with
    | none => pfSetH acc table.name ⟨fileName, table, [po]⟩
    | some f =>
      pfSetH acc table.name
        ⟨f.fileName,
         ⟨f.dataSchema.name, mergeColumns f.dataSchema.columns table.columns,
          f.dataSchema.pkFields⟩,
         f.payload ++ [po]⟩
  else acc

/-- The loop of `ProcessObjects` on the heap (lines 147–165). -/
def processLoopH (ctx : HCtx) :
    List Nat → Heap → List (String × ProcessedFileH) →
    Heap × HRes (List (String × ProcessedFileH))
  | [], h, acc => (h, .ok acc)
  | o :: rest, h, acc =>
    match processObjectH ctx h o with
    | (h', .crash) => (h', .crash)
    | (h', .err e) => (h', .err e)
    | (h', .ok (table, po)) =>
      processLoopH ctx rest h' (stepGroupH "" acc table po)

/-- `ProcessObjects` on the heap (lines 144–168). -/
def ProcessObjectsH (ctx : HCtx) (h : Heap) (objects : List Nat) :
    Heap × HRes (List (String × ProcessedFileH)) :=
  processLoopH ctx objects h []

/-- The loop of `ProcessFilePayload` on the heap (lines 99–136): the
caller-supplied parse function allocates the parsed record in the heap. -/
def fileLoopH (ctx : HCtx) (fileName : String) (breakOnError : Bool)
    (parseH : Heap → String → Heap × Except String Nat) :
    List String → Heap → List (String × ProcessedFileH) → List FailedFact →
    Heap × HRes (List (String × ProcessedFileH) × List FailedFact)
  | [], h, acc, facts => (h, .ok (acc, facts))
  | line :: rest, h, acc, facts =>
    match parseH h line with
    | (h1, .error e) => (h1, .err e)
    | (h1, .ok object) =>
      match processObjectH ctx h1 object with
      | (h2, .crash) => (h2, .crash)
      | (h2, .err e) =>
        if breakOnError then (h2, .err e)
        else
          fileLoopH ctx fileName breakOnError parseH rest h2 acc
            (facts ++
              [⟨dropLastByte line, e, ctx.extractEventIdH h2 object⟩])
      | (h2, .ok (table, po)) =>
        fileLoopH ctx fileName breakOnError parseH rest h2
          (stepGroupH fileName acc table po) facts

/-- `ProcessFilePayload` on the heap (lines 92–139). -/
def ProcessFilePayloadH (ctx : HCtx) (fileName : String) (payload : String)
    (breakOnError : Bool)
    (parseH : Heap → String → Heap × Except String Nat) (h : Heap) :
    Heap × HRes (List (String × ProcessedFileH) × List FailedFact) :=
  fileLoopH ctx fileName breakOnError parseH (readLines payload).1 h [] []

/-!
### Frame predicates

The frame contracts the external collaborators are assumed to satisfy:
each stage receives one object and may mutate only the part of the heap
reachable from it, or allocate; it never rewrites a cell below a base
address `n` when its whole argument graph lies at or above `n`.
-/

/-- The heap below base address `n` is untouched and the heap only grew. -/
def heapFrame (n : Nat) (h h' : Heap) : Prop :=
  h'.take n = h.take n ∧ h.length ≤ h'.length

/-- Frame contract of an in-place enrichment rule: run on an object graph
living at addresses `≥ n`, it preserves the heap below `n`, only grows the
heap, and leaves its argument's object graph at addresses `≥ n`. -/
def RuleFrameH (r : Heap → Nat → Heap × Option String) : Prop :=
  ∀ h a n, n ≤ h.length → ReachHi h a n →
    heapFrame n h (r h a).1 ∧ ReachHi (r h a).1 a n

/-- Frame contract of a transforming stage (field mapper, flattener): run
on an object graph living at addresses `≥ n`, it preserves the heap below
`n`, only grows the heap, and returns an object graph at addresses
`≥ n`. -/
def StageFrameH (g : Heap → Nat → Heap × Except String Nat) : Prop :=
  ∀ h a n, n ≤ h.length → ReachHi h a n →
    heapFrame n h (g h a).1 ∧
      ∀ a', (g h a).2 = .ok a' → ReachHi (g h a).1 a' n

/-- Frame contract of the caller-supplied parse function: it only
allocates (the parsed record is built from the line's bytes), never
rewriting existing cells. -/
def ParseFrameH (p : Heap → String → Heap × Except String Nat) : Prop :=
  ∀ h s n, n ≤ h.length → heapFrame n h (p h s).1

/-- Every reference of a cell points at or above `n`. -/
def cellHi (n : Nat) (cell : HObj) : Prop := ∀ r ∈ entryRefs cell, n ≤ r

/-- `hp` extends `h` by appended cells whose references all point at or
above `n` (the shape a deep copy leaves the heap in). -/
def heapExtHi (n : Nat) (h hp : Heap) : Prop :=
  ∃ d, hp = h ++ d ∧ ∀ cell ∈ d, cellHi n cell

/-!
## Concrete instances

A small concrete processor configuration with trivial collaborators, used
to evaluate the definitions on explicit inputs.
-/

/-- A concrete processor context: the identity mapper and flattener, no
enrichment rules, a time parser that accepts everything except `"bad"`, a
template that renders `"Events A"`, one mapping-level cast for field `c`
and one default type for field `d`, and conversion that tags the value
with the target type. -/
def wCtx : ProcCtx where
  timeParse := fun s => if s = "bad" then .error "parse" else .ok 7
  tmplExec := fun _ => .ok "Events A"
  tableNameExpression := "tpl"
  rules := []
  mapperMap := fun o => .ok o
  flatten := fun o => .ok o
  typeCasts := [("c", 5)]
  defaultTypes := [("d", 3)]
  convert := fun t _ => .ok (Value.int (Int.ofNat t))
  typeFromValue := fun _ => .ok 1
  stringFromType := fun _ => .ok "typ"
  reformatValue := fun v => v
  pkFields := []
  extractEventId := fun o =>
    match lookupObj o "id" with | some (.str s) => s | _ => ""

/-- A record that processes successfully under `wCtx`. -/
def wObj : Obj := [(timestampKey, Value.str "2020")]

/-- A record whose timestamp does not parse under `wCtx`. -/
def wBad : Obj := [(timestampKey, Value.str "bad")]

/-- A record exercising the cast and default-type branches under `wCtx`. -/
def wObjCD : Obj :=
  [(timestampKey, Value.str "2020"), ("c", Value.str "x"), ("d", Value.str "y"),
   ("e", Value.str "z")]

/-- `wCtx` with a failing template render. -/
def wCtxTmplFail : ProcCtx :=
  { wCtx with tmplExec := fun _ => .error "boom" }

/-- A destination schema holding only the timestamp column. -/
def wSchema : Table := ⟨"events_a", [(timestampKey, NewColumn 1)], []⟩

/-- A concrete parse function: the line `"a\n"` parses to the good record,
anything else to the record with the unparsable timestamp. -/
def wParse : String → Except String Obj :=
  fun line => if line = "a\n" then .ok wObj else .ok wBad

/-- A trivial heap-level context: no rules, identity mapper and
flattener. -/
def hTriv : HCtx where
  timeParse := fun _ => .ok 0
  tmplExecH := fun _ _ => .ok "t"
  tableNameExpression := "tpl"
  rulesH := []
  mapperH := fun h a => (h, .ok a)
  flattenH := fun h a => (h, .ok a)
  typeCasts := []
  defaultTypes := []
  convertH := fun _ v => .ok v
  typeFromValueH := fun _ => .ok 1
  stringFromTypeH := fun _ => .ok "typ"
  reformatH := fun v => v
  pkFields := []
  extractEventIdH := fun _ _ => ""

/-- A concrete two-cell heap: the record at address 0 holds a timestamp
string and a reference to the nested map at address 1. -/
def hHeap0 : Heap :=
  [[(timestampKey, HVal.str "x"), ("n", HVal.ref 1)], [("a", HVal.int 1)]]

/-!
## Association-list lemmas
-/

theorem lookupObj_setObj_self (o : Obj) (k : String) (v : Value) :
    lookupObj (setObj o k v) k = some v := by
  induction o with
  | nil => simp [setObj, lookupObj]
  | cons hd tl ih =>
    obtain ⟨k', v'⟩ := hd
    by_cases hk : k' = k
    · simp [setObj, hk, lookupObj]
    · simp [setObj, hk, lookupObj, ih]

theorem lookupObj_setObj_ne (o : Obj) (k k' : String) (v : Value)
    (hk : k' ≠ k) : lookupObj (setObj o k v) k' = lookupObj o k' := by
  induction o with
  | nil =>
    simp only [setObj, lookupObj]
    rw [if_neg (Ne.symm hk)]
  | cons hd tl ih =>
    obtain ⟨k0, v0⟩ := hd
    by_cases h0 : k0 = k
    · subst h0
      simp only [setObj, if_pos rfl, lookupObj]
      rw [if_neg (Ne.symm hk), if_neg (Ne.symm hk)]
    · simp only [setObj, if_neg h0, lookupObj]
      by_cases h1 : k0 = k'
      · rw [if_pos h1, if_pos h1]
      · rw [if_neg h1, if_neg h1, ih]

theorem setObj_setObj (o : Obj) (k : String) (v w : Value) :
    setObj (setObj o k v) k w = setObj o k w := by
  induction o with
  | nil => simp [setObj]
  | cons hd tl ih =>
    obtain ⟨k0, v0⟩ := hd
    by_cases h0 : k0 = k
    · simp [setObj, h0]
    · simp [setObj, h0, ih]

theorem setObj_restore (o : Obj) (k : String) (v w : Value)
    (h : lookupObj o k = some v) : setObj (setObj o k w) k v = o := by
  induction o with
  | nil => simp [lookupObj] at h
  | cons hd tl ih =>
    obtain ⟨k0, v0⟩ := hd
    by_cases h0 : k0 = k
    · subst h0
      simp [lookupObj] at h
      simp [setObj, h]
    · simp [lookupObj, h0] at h
      simp [setObj, h0, ih h]

/-!
## Table-name extraction (claims C1 and C6)
-/

/-- C1 (amended): the timestamp field's original string value is restored
bit-identically on every successful extraction (indeed the whole record is
restored), and the record is also untouched on the missing-field and
parse-failure errors; only on a template-render failure does the
substituted parsed time value remain in the record, which the
counterexample below exhibits. -/
theorem c1_timestamp_no_leak (ctx : ProcCtx) (object : Obj) :
    (∀ name object2, tableNameExtract ctx object = .ok name object2 →
      object2 = object) ∧
    (∀ msg object2, tableNameExtract ctx object = .err msg object2 →
      object2 = object ∨
      ∃ s t e, lookupObj object timestampKey = some (.str s) ∧
        ctx.timeParse s = .ok t ∧
        ctx.tmplExec (setObj object timestampKey (.time t)) = .error e ∧
        object2 = setObj object timestampKey (.time t)) := by
  constructor
  · intro name object2 hok
    cases hts : lookupObj object timestampKey with
    | none => simp [tableNameExtract, hts] at hok
    | some ts =>
      cases ts with
      | str s =>
        cases hp : ctx.timeParse s with
        | error e => simp [tableNameExtract, hts, hp] at hok
        | ok t =>
          cases he : ctx.tmplExec (setObj object timestampKey (.time t)) with
          | error e => simp [tableNameExtract, hts, hp, he] at hok
          | ok rendered =>
            simp [tableNameExtract, hts, hp, he] at hok
            rw [← hok.2]
            exact setObj_restore object timestampKey (.str s) (.time t) hts
      | int n => simp [tableNameExtract, hts] at hok
      | bool b => simp [tableNameExtract, hts] at hok
      | null => simp [tableNameExtract, hts] at hok
      | time t => simp [tableNameExtract, hts] at hok
      | obj m => simp [tableNameExtract, hts] at hok
      | arr l => simp [tableNameExtract, hts] at hok
  · intro msg object2 herr
    cases hts : lookupObj object timestampKey with
    | none =>
      simp [tableNameExtract, hts] at herr
      exact Or.inl herr.2.symm
    | some ts =>
      cases ts with
      | str s =>
        cases hp : ctx.timeParse s with
        | error e =>
          simp [tableNameExtract, hts, hp] at herr
          exact Or.inl herr.2.symm
        | ok t =>
          cases he : ctx.tmplExec (setObj object timestampKey (.time t)) with
          | error e =>
            simp [tableNameExtract, hts, hp, he] at herr
            exact Or.inr ⟨s, t, e, rfl, hp, he, herr.2.symm⟩
          | ok rendered => simp [tableNameExtract, hts, hp, he] at herr
      | int n => simp [tableNameExtract, hts] at herr
      | bool b => simp [tableNameExtract, hts] at herr
      | null => simp [tableNameExtract, hts] at herr
      | time t => simp [tableNameExtract, hts] at herr
      | obj m => simp [tableNameExtract, hts] at herr
      | arr l => simp [tableNameExtract, hts] at herr

/-- Witness: under the concrete context `wCtx`
the extraction succeeds and returns the record with its original timestamp
string intact. -/
theorem c1_timestamp_no_leak_witness :
    tableNameExtract wCtx wObj =
      .ok "events_a" [(timestampKey, Value.str "2020")] ∧
    ([(timestampKey, Value.str "2020")] : Obj) = wObj :=
  ⟨by rfl,
   (c1_timestamp_no_leak wCtx wObj).1 "events_a"
     [(timestampKey, Value.str "2020")] (by rfl)⟩

/-- Counterexample to C1 as stated: when the template render fails, the
extraction returns with the parsed time value still substituted for the
timestamp field — the original string `"2020"` is not restored, so the
value after the call is not bit-identical to the value before it. -/
theorem c1_counterexample :
    tableNameExtract wCtxTmplFail wObj =
      .err (errTmpl "tpl" "boom") [(timestampKey, Value.time 7)] ∧
    lookupObj wObj timestampKey = some (.str "2020") ∧
    Value.time 7 ≠ Value.str "2020" :=
  ⟨by rfl, by rfl, fun h => Value.noConfusion h⟩

/-- C6 (amended): extraction is total and error-reporting over records
whose timestamp field is absent (a descriptive error naming the field) or
holds a string (a descriptive error when the string does not parse, never
a crash); a record whose timestamp field is present but not a string makes
the unchecked type assertion `ts.(string)` panic, which the
counterexample below exhibits. -/
theorem c6_extraction_total (ctx : ProcCtx) (object : Obj) :
    (lookupObj object timestampKey = none →
      tableNameExtract ctx object = .err errTsMissing object) ∧
    (∀ s, lookupObj object timestampKey = some (.str s) →
      (∀ e, ctx.timeParse s = .error e →
        tableNameExtract ctx object = .err (errTsMalformed e) object) ∧
      tableNameExtract ctx object ≠ .crash) := by
  constructor
  · intro hts
    simp [tableNameExtract, hts]
  · intro s hts
    constructor
    · intro e hp
      simp [tableNameExtract, hts, hp]
    · intro hcrash
      cases hp : ctx.timeParse s with
      | error e => simp [tableNameExtract, hts, hp] at hcrash
      | ok t =>
        cases he : ctx.tmplExec (setObj object timestampKey (.time t)) with
        | error e => simp [tableNameExtract, hts, hp, he] at hcrash
        | ok rendered => simp [tableNameExtract, hts, hp, he] at hcrash

/-- Witness: a record without the timestamp
field gets the descriptive missing-field error, and a record whose
timestamp string does not parse gets the descriptive malformed-field
error. -/
theorem c6_extraction_total_witness :
    tableNameExtract wCtx [("a", Value.int 1)] =
      .err errTsMissing [("a", Value.int 1)] ∧
    tableNameExtract wCtx wBad = .err (errTsMalformed "parse") wBad :=
  ⟨(c6_extraction_total wCtx [("a", Value.int 1)]).1 (by rfl),
   ((c6_extraction_total wCtx wBad).2 "bad" (by rfl)).1 "parse" (by rfl)⟩

/-- Counterexample to C6 as stated: a record whose timestamp field is
present but holds a non-string value crashes extraction (the Go type
assertion `ts.(string)` panics) instead of failing with a descriptive
error. -/
theorem c6_counterexample :
    tableNameExtract wCtx [(timestampKey, Value.int 2)] = .crash :=
  by rfl

/-!
## Per-field type resolution (claim C2)
-/

theorem processObjectFields_mem (ctx : ProcCtx) :
    ∀ (flat : List (String × Value)) (cols : Columns) (flat' : Obj)
      (k : String) (v : Value),
      (flat.map Prod.fst).Nodup → (k, v) ∈ flat →
      processObjectFields ctx flat = .ok (cols, flat') →
      ∃ t w, processField ctx k v = .ok (t, w) ∧
        lookupCols cols k = some (NewColumn t) ∧
        lookupObj flat' k = some w := by
  intro flat
  induction flat with
  | nil => intro _ _ _ _ _ hmem; exact absurd hmem (List.not_mem_nil _)
  | cons hd rest ih =>
    obtain ⟨k0, v0⟩ := hd
    intro cols flat' k v hnd hmem hok
    cases hpf : processField ctx k0 v0 with
    | error e => simp [processObjectFields, hpf] at hok
    | ok p =>
      obtain ⟨t0, w0⟩ := p
      cases hrest : processObjectFields ctx rest with
      | error e => simp [processObjectFields, hpf, hrest] at hok
      | ok q =>
        obtain ⟨cols0, rest'⟩ := q
        simp [processObjectFields, hpf, hrest] at hok
        obtain ⟨hcols, hflat⟩ := hok
        rcases List.mem_cons.mp hmem with hhd | htl
        · have hk : k0 = k := (Prod.mk.injEq _ _ _ _ ▸ hhd.symm).1
          have hv : v0 = v := (Prod.mk.injEq _ _ _ _ ▸ hhd.symm).2
          subst hk; subst hv
          refine ⟨t0, w0, hpf, ?_, ?_⟩
          · rw [← hcols]; simp [lookupCols]
          · rw [← hflat]; simp [lookupObj]
        · have hk0 : k0 ∉ rest.map Prod.fst := by
            simp only [List.map_cons, List.nodup_cons] at hnd
            exact hnd.1
          have hkne : k0 ≠ k := by
            intro hEq
            exact hk0 (hEq ▸ List.mem_map_of_mem Prod.fst htl)
          have hnd' : (rest.map Prod.fst).Nodup := by
            simp only [List.map_cons, List.nodup_cons] at hnd
            exact hnd.2
          obtain ⟨t, w, hpfk, hc, hf⟩ := ih cols0 rest' k v hnd' htl hrest
          refine ⟨t, w, hpfk, ?_, ?_⟩
          · rw [← hcols]; simp [lookupCols, hkne, hc]
          · rw [← hflat]; simp [lookupObj, hkne, hf]

/-- C2: in the typecast loop of `processObject`, every field of the
flattened record is resolved with the precedence: a configured
mapping-level cast wins (converting the reformatted raw value and
recording the cast type as the field's `Column`); otherwise a registered
global default type applies; otherwise the natural type is inferred from
the reformatted value, which is kept unchanged.  In each case the
converted value replaces the field's value in the flat record. -/
theorem c2_type_resolution_precedence (ctx : ProcCtx)
    (flat : List (String × Value)) (cols : Columns) (flat' : Obj)
    (k : String) (v : Value)
    (hnd : (flat.map Prod.fst).Nodup) (hmem : (k, v) ∈ flat)
    (hok : processObjectFields ctx flat = .ok (cols, flat')) :
    (∀ toType, lookupType ctx.typeCasts k = some toType →
      ∃ w, ctx.convert toType (ctx.reformatValue v) = .ok w ∧
        lookupCols cols k = some (NewColumn toType) ∧
        lookupObj flat' k = some w) ∧
    (lookupType ctx.typeCasts k = none →
      ∀ d, lookupType ctx.defaultTypes k = some d →
        ∃ w, ctx.convert d (ctx.reformatValue v) = .ok w ∧
          lookupCols cols k = some (NewColumn d) ∧
          lookupObj flat' k = some w) ∧
    (lookupType ctx.typeCasts k = none →
      lookupType ctx.defaultTypes k = none →
      ∃ t, ctx.typeFromValue (ctx.reformatValue v) = .ok t ∧
        lookupCols cols k = some (NewColumn t) ∧
        lookupObj flat' k = some (ctx.reformatValue v)) := by
  obtain ⟨t, w, hpf, hc, hf⟩ :=
    processObjectFields_mem ctx flat cols flat' k v hnd hmem hok
  refine ⟨?_, ?_, ?_⟩
  · intro toType hcast
    cases htv : ctx.typeFromValue (ctx.reformatValue v) with
    | error e => simp [processField, htv] at hpf
    | ok natural =>
      cases hdef : lookupType ctx.defaultTypes k with
      | none =>
        cases hcv : ctx.convert toType (ctx.reformatValue v) with
        | error e => simp [processField, htv, hdef, hcast, hcv] at hpf
        | ok c =>
          simp [processField, htv, hdef, hcast, hcv] at hpf
          exact ⟨c, rfl, hpf.1 ▸ hc, hpf.2 ▸ hf⟩
      | some d =>
        cases hdc : ctx.convert d (ctx.reformatValue v) with
        | error e => simp [processField, htv, hdef, hdc, hcast] at hpf
        | ok cD =>
          cases hcv : ctx.convert toType (ctx.reformatValue v) with
          | error e => simp [processField, htv, hdef, hdc, hcast, hcv] at hpf
          | ok c =>
            simp [processField, htv, hdef, hdc, hcast, hcv] at hpf
            exact ⟨c, rfl, hpf.1 ▸ hc, hpf.2 ▸ hf⟩
  · intro hcast d hdef
    cases htv : ctx.typeFromValue (ctx.reformatValue v) with
    | error e => simp [processField, htv] at hpf
    | ok natural =>
      cases hdc : ctx.convert d (ctx.reformatValue v) with
      | error e => simp [processField, htv, hdef, hdc, hcast] at hpf
      | ok cD =>
        simp [processField, htv, hdef, hdc, hcast] at hpf
        exact ⟨cD, rfl, hpf.1 ▸ hc, hpf.2 ▸ hf⟩
  · intro hcast hdef
    cases htv : ctx.typeFromValue (ctx.reformatValue v) with
    | error e => simp [processField, htv] at hpf
    | ok natural =>
      simp [processField, htv, hdef, hcast] at hpf
      exact ⟨natural, rfl, hpf.1 ▸ hc, hpf.2 ▸ hf⟩

/-- Witness: under `wCtx` the record `wObjCD` resolves field `c` by its
mapping-level cast (type 5), field `d` by its default type (type 3), and
field `e` by natural inference, with the converted values written back. -/
theorem c2_type_resolution_precedence_witness :
    processObjectFields wCtx wObjCD =
      .ok ([(timestampKey, NewColumn 1), ("c", NewColumn 5),
            ("d", NewColumn 3), ("e", NewColumn 1)],
           [(timestampKey, Value.str "2020"), ("c", Value.int 5),
            ("d", Value.int 3), ("e", Value.str "z")]) ∧
    ∃ w, wCtx.convert 5 (wCtx.reformatValue (Value.str "x")) = .ok w ∧
      lookupCols [(timestampKey, NewColumn 1), ("c", NewColumn 5),
        ("d", NewColumn 3), ("e", NewColumn 1)] "c" = some (NewColumn 5) ∧
      lookupObj [(timestampKey, Value.str "2020"), ("c", Value.int 5),
        ("d", Value.int 3), ("e", Value.str "z")] "c" = some w :=
  ⟨by rfl,
   (c2_type_resolution_precedence wCtx wObjCD _ _ "c" (Value.str "x")
      (by decide)
      (List.mem_cons_of_mem _ (List.mem_cons_self _ _))
      (by rfl)).1 5 (by rfl)⟩

/-!
## Batch processing (claim C3)
-/

theorem processLoop_first_err (ctx : ProcCtx) :
    ∀ (pre : List Obj) (o : Obj) (rest : List Obj) (e : String)
      (acc : List (String × ProcessedFile)),
      (∀ p ∈ pre, ∃ r, processObject ctx p = .ok r) →
      processObject ctx o = .err e →
      processLoop ctx (pre ++ o :: rest) acc = .err e := by
  intro pre
  induction pre with
  | nil =>
    intro o rest e acc _ ho
    simp [processLoop, ho]
  | cons p ps ih =>
    intro o rest e acc hpre ho
    obtain ⟨⟨table, po⟩, hp⟩ := hpre p (List.mem_cons_self _ _)
    have hps : ∀ q ∈ ps, ∃ r, processObject ctx q = .ok r :=
      fun q hq => hpre q (List.mem_cons_of_mem _ hq)
    simp only [List.cons_append, processLoop, hp]
    exact ih o rest e _ hps ho

theorem processLoop_all_ok (ctx : ProcCtx) :
    ∀ (objects : List Obj) (acc : List (String × ProcessedFile)),
      (∀ o ∈ objects, ∃ r, processObject ctx o = .ok r) →
      processLoop ctx objects acc =
        .ok (groupResults "" (okResults ctx objects) acc) := by
  intro objects
  induction objects with
  | nil => intro acc _; simp [processLoop, groupResults, okResults]
  | cons o rest ih =>
    intro acc hall
    obtain ⟨⟨table, po⟩, ho⟩ := hall o (List.mem_cons_self _ _)
    have hrest : ∀ q ∈ rest, ∃ r, processObject ctx q = .ok r :=
      fun q hq => hall q (List.mem_cons_of_mem _ hq)
    simp only [processLoop, ho]
    rw [ih _ hrest]
    simp [okResults, ho, groupResults]

/-- C3: `ProcessObjects` is all-or-nothing — when the records before some
failing record all process successfully, the call returns exactly that
first record's error (a `Res.err`, which in Go comes with a nil result
map, so every partial per-table result is discarded); when no record
fails, it returns the grouped per-table map obtained by folding the
grouping step over the per-object results, and no error. -/
theorem c3_processObjects_all_or_nothing (ctx : ProcCtx) :
    (∀ (pre : List Obj) (o : Obj) (rest : List Obj) (e : String),
      (∀ p ∈ pre, ∃ r, processObject ctx p = .ok r) →
      processObject ctx o = .err e →
      ProcessObjects ctx (pre ++ o :: rest) = .err e) ∧
    (∀ objects : List Obj,
      (∀ o ∈ objects, ∃ r, processObject ctx o = .ok r) →
      ProcessObjects ctx objects =
        .ok (groupResults "" (okResults ctx objects) [])) :=
  ⟨fun pre o rest e hpre ho =>
     processLoop_first_err ctx pre o rest e [] hpre ho,
   fun objects hall => processLoop_all_ok ctx objects [] hall⟩

/-- Witness: a batch whose second record has an unparsable timestamp
returns exactly that record's error, discarding the first record's
result. -/
theorem c3_processObjects_all_or_nothing_witness :
    ProcessObjects wCtx [wObj, wBad, wObj] =
      .err (errExtract "tpl" (errTsMalformed "parse")) :=
  (c3_processObjects_all_or_nothing wCtx).1 [wObj] wBad [wObj]
    (errExtract "tpl" (errTsMalformed "parse"))
    (by
      intro p hp
      rw [List.mem_singleton] at hp
      subst hp
      exact ⟨(⟨"events_a", [(timestampKey, NewColumn 1)], []⟩,
              [(timestampKey, Value.str "2020")]), by rfl⟩)
    (by rfl)

/-!
## File payload processing (claims C4 and C5)
-/

theorem fileLoop_lenient (ctx : ProcCtx) (fileName : String)
    (parseFunc : String → Except String Obj) :
    ∀ (lines : List String) (acc : List (String × ProcessedFile))
      (facts : List FailedFact),
      (∀ line ∈ lines, ∃ obj, parseFunc line = .ok obj ∧
        processObject ctx obj ≠ .crash) →
      fileLoop ctx fileName false parseFunc lines acc facts =
        .ok (groupResults fileName (okResultsFile ctx parseFunc lines) acc,
             facts ++ specFailedFacts ctx parseFunc lines) := by
  intro lines
  induction lines with
  | nil =>
    intro acc facts _
    simp [fileLoop, groupResults, okResultsFile, specFailedFacts]
  | cons line rest ih =>
    intro acc facts hall
    obtain ⟨obj, hparse, hnc⟩ := hall line (List.mem_cons_self _ _)
    have hrest : ∀ l ∈ rest, ∃ o, parseFunc l = .ok o ∧
        processObject ctx o ≠ .crash :=
      fun l hl => hall l (List.mem_cons_of_mem _ hl)
    cases hpo : processObject ctx obj with
    | crash => exact absurd hpo hnc
    | err e =>
      simp only [fileLoop, hparse, hpo, if_neg (by simp : ¬False)]
      rw [ih _ _ hrest]
      simp [okResultsFile, specFailedFacts, hparse, hpo, groupResults]
    | ok r =>
      obtain ⟨table, po⟩ := r
      simp only [fileLoop, hparse, hpo]
      rw [ih _ _ hrest]
      simp [okResultsFile, specFailedFacts, hparse, hpo, groupResults]

theorem fileLoop_parse_fatal (ctx : ProcCtx) (fileName : String)
    (parseFunc : String → Except String Obj) :
    ∀ (pre : List String) (line : String) (rest : List String) (e : String)
      (acc : List (String × ProcessedFile)) (facts : List FailedFact),
      (∀ l ∈ pre, ∃ obj, parseFunc l = .ok obj ∧
        processObject ctx obj ≠ .crash) →
      parseFunc line = .error e →
      fileLoop ctx fileName false parseFunc (pre ++ line :: rest) acc facts =
        .err e := by
  intro pre
  induction pre with
  | nil =>
    intro line rest e acc facts _ hline
    simp [fileLoop, hline]
  | cons l ls ih =>
    intro line rest e acc facts hpre hline
    obtain ⟨obj, hparse, hnc⟩ := hpre l (List.mem_cons_self _ _)
    have hls : ∀ q ∈ ls, ∃ o, parseFunc q = .ok o ∧
        processObject ctx o ≠ .crash :=
      fun q hq => hpre q (List.mem_cons_of_mem _ hq)
    cases hpo : processObject ctx obj with
    | crash => exact absurd hpo hnc
    | err e0 =>
      simp only [List.cons_append, fileLoop, hparse, hpo,
        if_neg (by simp : ¬False)]
      exact ih line rest e _ _ hls hline
    | ok r =>
      obtain ⟨table, po⟩ := r
      simp only [List.cons_append, fileLoop, hparse, hpo]
      exact ih line rest e _ _ hls hline

/-- C4: on the lenient path (`breakOnError = false`), when every
terminated line parses and no line panics, `ProcessFilePayload` returns
without a fatal error; each line whose record fails per-object processing
contributes exactly one `FailedFact` holding the original line bytes minus
the trailing terminator byte, the error's message, and the best-effort
event id extracted from the parsed object, while iteration continues and
the successful lines are grouped per table.  A parse-function failure, by
contrast, is fatal to the whole call. -/
theorem c4_lenient_collects_failed_facts (ctx : ProcCtx)
    (fileName : String) (parseFunc : String → Except String Obj) :
    (∀ payload : String,
      (∀ line ∈ (readLines payload).1, ∃ obj,
        parseFunc line = .ok obj ∧ processObject ctx obj ≠ .crash) →
      ProcessFilePayload ctx fileName payload false parseFunc =
        .ok (groupResults fileName
               (okResultsFile ctx parseFunc (readLines payload).1) [],
             specFailedFacts ctx parseFunc (readLines payload).1)) ∧
    (∀ (payload : String) (pre : List String) (line : String)
       (rest : List String) (e : String),
      (readLines payload).1 = pre ++ line :: rest →
      (∀ l ∈ pre, ∃ obj, parseFunc l = .ok obj ∧
        processObject ctx obj ≠ .crash) →
      parseFunc line = .error e →
      ProcessFilePayload ctx fileName payload false parseFunc = .err e) := by
  constructor
  · intro payload hall
    exact fileLoop_lenient ctx fileName parseFunc (readLines payload).1
      [] [] hall
  · intro payload pre line rest e hlines hpre hline
    unfold ProcessFilePayload
    rw [hlines]
    exact fileLoop_parse_fatal ctx fileName parseFunc pre line rest e
      [] [] hpre hline

/-- Witness: a two-line payload with one valid line and one whose
timestamp does not parse yields, in lenient mode, one grouped table entry
and exactly one `FailedFact` whose event is the invalid line with its
trailing newline stripped, whose error is the processing error's message,
and whose event id is empty. -/
theorem c4_lenient_collects_failed_facts_witness :
    ProcessFilePayload wCtx "f" "a\nb\n" false wParse =
      .ok (groupResults "f"
             (okResultsFile wCtx wParse (readLines "a\nb\n").1) [],
           specFailedFacts wCtx wParse (readLines "a\nb\n").1) ∧
    specFailedFacts wCtx wParse (readLines "a\nb\n").1 =
      [⟨"b", errExtract "tpl" (errTsMalformed "parse"), ""⟩] ∧
    groupResults "f" (okResultsFile wCtx wParse (readLines "a\nb\n").1) [] =
      [("events_a", ⟨"f", ⟨"events_a", [(timestampKey, NewColumn 1)], []⟩,
        [[(timestampKey, Value.str "2020")]]⟩)] :=
  ⟨(c4_lenient_collects_failed_facts wCtx "f" wParse).1 "a\nb\n"
    (by
      intro line hl
      have hlines : (readLines "a\nb\n").1 = ["a\n", "b\n"] := by rfl
      rw [hlines, List.mem_cons, List.mem_singleton] at hl
      rcases hl with h | h
      · subst h
        refine ⟨wObj, by rfl, ?_⟩
        intro hc
        rw [show processObject wCtx wObj =
          .ok (⟨"events_a", [(timestampKey, NewColumn 1)], []⟩,
               [(timestampKey, Value.str "2020")]) from rfl] at hc
        cases hc
      · subst h
        refine ⟨wBad, by rfl, ?_⟩
        intro hc
        rw [show processObject wCtx wBad =
          .err (errExtract "tpl" (errTsMalformed "parse")) from rfl] at hc
        cases hc),
   by rfl, by rfl⟩

theorem readLinesAux_no_terminator (chunk : List Char)
    (hch : ∀ c ∈ chunk, c ≠ '\n') :
    ∀ acc, (readLinesAux chunk acc).1 = [] := by
  induction chunk with
  | nil => intro acc; simp [readLinesAux]
  | cons c rest ih =>
    intro acc
    have hc : c ≠ '\n' := hch c (List.mem_cons_self _ _)
    have hrest : ∀ d ∈ rest, d ≠ '\n' :=
      fun d hd => hch d (List.mem_cons_of_mem _ hd)
    simp only [readLinesAux, if_neg hc]
    exact ih hrest (c :: acc)

theorem readLinesAux_append_no_terminator (chunk : List Char)
    (hch : ∀ c ∈ chunk, c ≠ '\n') :
    ∀ (l : List Char) (acc : List Char),
      (readLinesAux (l ++ chunk) acc).1 = (readLinesAux l acc).1 := by
  intro l
  induction l with
  | nil =>
    intro acc
    simp only [List.nil_append, readLinesAux]
    exact readLinesAux_no_terminator chunk hch acc
  | cons c rest ih =>
    intro acc
    by_cases hc : c = '\n'
    · simp only [List.cons_append, readLinesAux, if_pos hc, List.append_eq, ih]
    · simp only [List.cons_append, readLinesAux, if_neg hc, List.append_eq, ih]

/-- C5 (amended): `ProcessFilePayload` processes exactly the
line-terminator-terminated lines of the payload; a final unterminated
chunk is silently ignored — appending terminator-free bytes to a payload
never changes the result, in either failure mode.  The counterexample
below exhibits the dropped record. -/
theorem c5_unterminated_last_line_ignored (ctx : ProcCtx)
    (fileName payload chunk : String) (breakOnError : Bool)
    (parseFunc : String → Except String Obj)
    (hch : ∀ c ∈ chunk.data, c ≠ '\n') :
    ProcessFilePayload ctx fileName (payload ++ chunk) breakOnError
        parseFunc =
      ProcessFilePayload ctx fileName payload breakOnError parseFunc := by
  unfold ProcessFilePayload
  have hdata : (payload ++ chunk).data = payload.data ++ chunk.data := by
    simp [String.data_append]
  have hlines : (readLines (payload ++ chunk)).1 = (readLines payload).1 := by
    simp only [readLines, hdata]
    rw [readLinesAux_append_no_terminator chunk.data hch payload.data []]
  rw [hlines]

/-- Witness: appending the terminator-free byte `"x"` to a terminated
payload leaves the lenient-mode result unchanged. -/
theorem c5_unterminated_last_line_ignored_witness :
    ProcessFilePayload wCtx "f" ("a\n" ++ "x") false wParse =
      ProcessFilePayload wCtx "f" "a\n" false wParse :=
  c5_unterminated_last_line_ignored wCtx "f" "a\n" "x" false wParse
    (by decide)

/-- Counterexample to C5 as stated: a payload consisting of a single
record on an unterminated last line produces no per-table output and no
`FailedFact` — the record is silently dropped even though processing it
would succeed (second conjunct), because the read loop `for readErr == nil`
exits when `ReadBytes` returns the chunk together with `io.EOF`. -/
theorem c5_counterexample :
    ProcessFilePayload wCtx "f" "x" false (fun _ => .ok wObj) =
      .ok ([], []) ∧
    processObject wCtx wObj =
      .ok (⟨"events_a", [(timestampKey, NewColumn 1)], []⟩,
           [(timestampKey, Value.str "2020")]) :=
  ⟨by rfl, by rfl⟩

/-!
## Destination typing (claim C7)
-/

theorem applyDBTypingToObject_err (ctx : ProcCtx) (dbSchema : Table) :
    ∀ object : Obj,
      (∃ k v, (k, v) ∈ object ∧ ∃ e, applyDBRow ctx dbSchema k v = .error e) →
      ∃ k v e, (k, v) ∈ object ∧ applyDBRow ctx dbSchema k v = .error e ∧
        ApplyDBTypingToObject ctx dbSchema object = .error e := by
  intro object
  induction object with
  | nil =>
    rintro ⟨k, v, hmem, -⟩
    exact absurd hmem (List.not_mem_nil _)
  | cons hd rest ih =>
    obtain ⟨k0, v0⟩ := hd
    rintro ⟨k, v, hmem, e, herr⟩
    cases hrow : applyDBRow ctx dbSchema k0 v0 with
    | error e0 =>
      exact ⟨k0, v0, e0, List.mem_cons_self _ _, hrow,
        by simp [ApplyDBTypingToObject, hrow]⟩
    | ok w =>
      rcases List.mem_cons.mp hmem with hhd | htl
      · injection hhd with hk hv
        subst hk; subst hv
        rw [hrow] at herr
        simp at herr
      · obtain ⟨k1, v1, e1, hm, hr, happ⟩ := ih ⟨k, v, htl, e, herr⟩
        exact ⟨k1, v1, e1, List.mem_cons_of_mem _ hm, hr,
          by simp [ApplyDBTypingToObject, hrow, happ]⟩

theorem applyAllObjects_first_err (ctx : ProcCtx) (dbSchema : Table) :
    ∀ (pre : List Obj) (o : Obj) (rest : List Obj) (e : String),
      (∀ p ∈ pre, ∃ r, ApplyDBTypingToObject ctx dbSchema p = .ok r) →
      ApplyDBTypingToObject ctx dbSchema o = .error e →
      applyAllObjects ctx dbSchema (pre ++ o :: rest) = .error e := by
  intro pre
  induction pre with
  | nil =>
    intro o rest e _ ho
    simp [applyAllObjects, ho]
  | cons p ps ih =>
    intro o rest e hpre ho
    obtain ⟨r, hp⟩ := hpre p (List.mem_cons_self _ _)
    have hps : ∀ q ∈ ps, ∃ r, ApplyDBTypingToObject ctx dbSchema q = .ok r :=
      fun q hq => hpre q (List.mem_cons_of_mem _ hq)
    simp only [List.cons_append, applyAllObjects, hp, List.append_eq]
    rw [ih o rest e hps ho]

/-- C7: destination typing fails field-qualified — a field absent from the
destination table's column map makes its row conversion fail with an error
naming the field, any failing row makes `ApplyDBTypingToObject` return a
failing row's field-qualified error, every row error names its field, and
a record failing inside a `ProcessedFile` makes `ApplyDBTyping` abort the
whole call with that record's error. -/
theorem c7_db_typing_field_qualified_abort (ctx : ProcCtx)
    (dbSchema : Table) :
    (∀ (k : String) (v : Value), lookupCols dbSchema.columns k = none →
      applyDBRow ctx dbSchema k v = .error (errApplyMissing k)) ∧
    (∀ (k : String) (v : Value) (e : String),
      applyDBRow ctx dbSchema k v = .error e →
      e = errApplyMissing k ∨
      ∃ t e', e = errApplyConvert ctx t k e') ∧
    (∀ object : Obj,
      (∃ k v, (k, v) ∈ object ∧ ∃ e, applyDBRow ctx dbSchema k v = .error e) →
      ∃ k v e, (k, v) ∈ object ∧ applyDBRow ctx dbSchema k v = .error e ∧
        ApplyDBTypingToObject ctx dbSchema object = .error e) ∧
    (∀ (pf : ProcessedFile) (pre : List Obj) (o : Obj) (rest : List Obj)
       (e : String),
      pf.payload = pre ++ o :: rest →
      (∀ p ∈ pre, ∃ r, ApplyDBTypingToObject ctx dbSchema p = .ok r) →
      ApplyDBTypingToObject ctx dbSchema o = .error e →
      ApplyDBTyping ctx dbSchema pf = .error e) := by
  refine ⟨?_, ?_, applyDBTypingToObject_err ctx dbSchema, ?_⟩
  · intro k v hnone
    simp [applyDBRow, hnone]
  · intro k v e herr
    cases hcol : lookupCols dbSchema.columns k with
    | none =>
      simp [applyDBRow, hcol] at herr
      exact Or.inl herr.symm
    | some column =>
      cases hcv : ctx.convert column.dataType v with
      | error e' =>
        simp [applyDBRow, hcol, hcv] at herr
        exact Or.inr ⟨column.dataType, e', herr.symm⟩
      | ok w => simp [applyDBRow, hcol, hcv] at herr
  · intro pf pre o rest e hpayload hpre ho
    unfold ApplyDBTyping
    rw [hpayload]
    exact applyAllObjects_first_err ctx dbSchema pre o rest e hpre ho

/-- Witness: a record holding a field `zz` absent from the destination
schema makes the whole `ApplyDBTyping` call fail with the field-qualified
error naming `zz`. -/
theorem c7_db_typing_field_qualified_abort_witness :
    ApplyDBTyping wCtx wSchema
        ⟨"", wSchema, [[("zz", Value.int 1)]]⟩ =
      .error (errApplyMissing "zz") :=
  (c7_db_typing_field_qualified_abort wCtx wSchema).2.2.2
    ⟨"", wSchema, [[("zz", Value.int 1)]]⟩ [] [("zz", Value.int 1)] []
    (errApplyMissing "zz") (by rfl)
    (by intro p hp; exact absurd hp (List.not_mem_nil _))
    (by rfl)

/-!
## Schema accumulation (claim C9)
-/

theorem mem_colNames_iff (cols : Columns) (k : String) :
    k ∈ colNames cols ↔ ∃ c, lookupCols cols k = some c := by
  induction cols with
  | nil => simp [colNames, lookupCols]
  | cons hd rest ih =>
    obtain ⟨k0, c0⟩ := hd
    by_cases hk : k0 = k
    · subst hk
      simp [colNames, lookupCols]
    · simp only [colNames, List.map_cons, List.mem_cons, lookupCols]
      rw [if_neg hk]
      constructor
      · rintro (h | h)
        · exact absurd h.symm hk
        · exact ih.mp h
      · intro h
        exact Or.inr (ih.mpr h)

theorem mem_colNames_merge (d : Columns) :
    ∀ (c : Columns) (k : String),
      k ∈ colNames (mergeColumns c d) ↔ k ∈ colNames c ∨ k ∈ colNames d := by
  induction d with
  | nil => intro c k; simp [mergeColumns, colNames]
  | cons hd d' ih =>
    obtain ⟨k0, c0⟩ := hd
    intro c k
    have hstep : mergeColumns c ((k0, c0) :: d') =
        mergeColumns
          (match lookupCols c k0 with
           | some _ => c
           | none => c ++ [(k0, c0)]) d' := rfl
    rw [hstep]
    cases hl : lookupCols c k0 with
    | some c1 =>
      have hk0 : k0 ∈ colNames c := (mem_colNames_iff c k0).mpr ⟨c1, hl⟩
      have hk0' : k = k0 → k ∈ colNames c := fun h => h ▸ hk0
      simp only [hl, ih]
      simp only [colNames, List.map_cons, List.mem_cons]
      constructor
      · rintro (h | h)
        · exact Or.inl h
        · exact Or.inr (Or.inr h)
      · rintro (h | h | h)
        · exact Or.inl h
        · exact Or.inl (hk0' h)
        · exact Or.inr h
    | none =>
      simp only [hl, ih]
      simp only [colNames, List.map_append, List.map_cons, List.map_nil,
        List.mem_append, List.mem_cons, List.mem_singleton, List.not_mem_nil,
        or_false, List.mem_map]
      constructor
      · rintro ((h | h) | h)
        · exact Or.inl h
        · exact Or.inr (Or.inl h)
        · exact Or.inr (Or.inr h)
      · rintro (h | h | h)
        · exact Or.inl (Or.inl h)
        · exact Or.inl (Or.inr h)
        · exact Or.inr h

theorem pfLookup_pfSet_self (acc : List (String × ProcessedFile))
    (name : String) (f : ProcessedFile) :
    pfLookup (pfSet acc name f) name = some f := by
  induction acc with
  | nil => simp [pfSet, pfLookup]
  | cons hd rest ih =>
    obtain ⟨k0, f0⟩ := hd
    by_cases hk : k0 = name
    · simp [pfSet, hk, pfLookup]
    · simp [pfSet, hk, pfLookup, ih]

theorem pfLookup_pfSet_ne (acc : List (String × ProcessedFile))
    (name T : String) (f : ProcessedFile) (hT : T ≠ name) :
    pfLookup (pfSet acc name f) T = pfLookup acc T := by
  induction acc with
  | nil =>
    simp only [pfSet, pfLookup]
    rw [if_neg (Ne.symm hT)]
  | cons hd rest ih =>
    obtain ⟨k0, f0⟩ := hd
    by_cases h0 : k0 = name
    · subst h0
      simp only [pfSet, if_pos rfl, pfLookup]
      rw [if_neg (Ne.symm hT), if_neg (Ne.symm hT)]
    · simp only [pfSet, if_neg h0, pfLookup]
      by_cases h1 : k0 = T
      · rw [if_pos h1, if_pos h1]
      · rw [if_neg h1, if_neg h1, ih]

theorem stepGroup_names (fn : String) (acc : List (String × ProcessedFile))
    (t : Table) (po : Obj) (T k : String) :
    (∃ f, pfLookup (stepGroup fn acc t po) T = some f ∧
      k ∈ colNames f.dataSchema.columns) ↔
    ((∃ f, pfLookup acc T = some f ∧ k ∈ colNames f.dataSchema.columns) ∨
      (t.name = T ∧ t.existsB = true ∧ k ∈ colNames t.columns)) := by
  by_cases hex : t.existsB = true
  · by_cases hT : t.name = T
    · subst hT
      cases hacc : pfLookup acc t.name with
      | none =>
        have hsg : stepGroup fn acc t po =
            pfSet acc t.name ⟨fn, t, [po]⟩ := by
          simp [stepGroup, hex, hacc]
        rw [hsg]
        constructor
        · rintro ⟨f, hf, hk⟩
          rw [pfLookup_pfSet_self] at hf
          injection hf with hf
          subst hf
          exact Or.inr ⟨rfl, hex, hk⟩
        · rintro (⟨f, hf, hk⟩ | ⟨-, -, hk⟩)
          · exact Option.noConfusion hf
          · exact ⟨⟨fn, t, [po]⟩, pfLookup_pfSet_self acc t.name _, hk⟩
      | some f0 =>
        have hsg : stepGroup fn acc t po =
            pfSet acc t.name
              ⟨f0.fileName,
               ⟨f0.dataSchema.name,
                mergeColumns f0.dataSchema.columns t.columns,
                f0.dataSchema.pkFields⟩,
               f0.payload ++ [po]⟩ := by
          simp [stepGroup, hex, hacc]
        rw [hsg]
        constructor
        · rintro ⟨f, hf, hk⟩
          rw [pfLookup_pfSet_self] at hf
          injection hf with hf
          subst hf
          rcases (mem_colNames_merge t.columns f0.dataSchema.columns k).mp
            hk with h | h
          · exact Or.inl ⟨f0, rfl, h⟩
          · exact Or.inr ⟨rfl, hex, h⟩
        · rintro (⟨f, hf, hk⟩ | ⟨-, -, hk⟩)
          · injection hf with hf
            subst hf
            exact ⟨_, pfLookup_pfSet_self acc t.name _,
              (mem_colNames_merge t.columns f0.dataSchema.columns k).mpr
                (Or.inl hk)⟩
          · exact ⟨_, pfLookup_pfSet_self acc t.name _,
              (mem_colNames_merge t.columns f0.dataSchema.columns k).mpr
                (Or.inr hk)⟩
    · have hT' : T ≠ t.name := fun h => hT h.symm
      have hpf : pfLookup (stepGroup fn acc t po) T = pfLookup acc T := by
        cases hacc : pfLookup acc t.name with
        | none =>
          simp [stepGroup, hex, hacc, pfLookup_pfSet_ne acc t.name T _ hT']
        | some f0 =>
          simp [stepGroup, hex, hacc, pfLookup_pfSet_ne acc t.name T _ hT']
      rw [hpf]
      simp [hT]
  · have hsg : stepGroup fn acc t po = acc := by simp [stepGroup, hex]
    rw [hsg]
    simp [hex]

theorem groupResults_names (fn : String) :
    ∀ (rs : List (Table × Obj)) (acc : List (String × ProcessedFile))
      (T k : String),
      (∃ f, pfLookup (groupResults fn rs acc) T = some f ∧
        k ∈ colNames f.dataSchema.columns) ↔
      ((∃ f, pfLookup acc T = some f ∧ k ∈ colNames f.dataSchema.columns) ∨
        ∃ t po, (t, po) ∈ rs ∧ t.name = T ∧ t.existsB = true ∧
          k ∈ colNames t.columns) := by
  intro rs
  induction rs with
  | nil =>
    intro acc T k
    simp [groupResults]
  | cons r rest ih =>
    obtain ⟨t, po⟩ := r
    intro acc T k
    have hfold : groupResults fn ((t, po) :: rest) acc =
        groupResults fn rest (stepGroup fn acc t po) := rfl
    rw [hfold, ih, stepGroup_names]
    constructor
    · rintro ((h | h) | ⟨t1, po1, hm, h1, h2, h3⟩)
      · exact Or.inl h
      · exact Or.inr ⟨t, po, List.mem_cons_self _ _, h⟩
      · exact Or.inr ⟨t1, po1, List.mem_cons_of_mem _ hm, h1, h2, h3⟩
    · rintro (h | ⟨t1, po1, hm, h1, h2, h3⟩)
      · exact Or.inl (Or.inl h)
      · rcases List.mem_cons.mp hm with hhd | htl
        · injection hhd with hk1 hk2
          subst hk1
          exact Or.inl (Or.inr ⟨h1, h2, h3⟩)
        · exact Or.inr ⟨t1, po1, htl, h1, h2, h3⟩

theorem mem_okResults (ctx : ProcCtx) (objects : List Obj) (t : Table)
    (po : Obj) :
    (t, po) ∈ okResults ctx objects ↔
      ∃ o ∈ objects, processObject ctx o = .ok (t, po) := by
  rw [okResults, List.mem_filterMap]
  refine exists_congr fun o => and_congr_right fun _ => ?_
  cases hpo : processObject ctx o with
  | ok r => simp
  | err e => simp
  | crash => simp

theorem mem_okResultsFile (ctx : ProcCtx)
    (parseFunc : String → Except String Obj) (lines : List String)
    (t : Table) (po : Obj) :
    (t, po) ∈ okResultsFile ctx parseFunc lines ↔
      ∃ line obj, line ∈ lines ∧ parseFunc line = .ok obj ∧
        processObject ctx obj = .ok (t, po) := by
  rw [okResultsFile, List.mem_filterMap]
  refine exists_congr fun line => ?_
  constructor
  · rintro ⟨hl, hg⟩
    cases hp : parseFunc line with
    | error e => rw [hp] at hg; exact Option.noConfusion hg
    | ok obj =>
      rw [hp] at hg
      have hg' : (match processObject ctx obj with
          | Res.ok r => some r
          | _ => none) = some (t, po) := hg
      refine ⟨obj, hl, rfl, ?_⟩
      cases hpo : processObject ctx obj with
      | ok r =>
        rw [hpo] at hg'
        have hg2 : some r = some (t, po) := hg'
        injection hg2 with hg2
        rw [hg2]
      | err e =>
        rw [hpo] at hg'
        have hg2 : (none : Option (Table × Obj)) = some (t, po) := hg'
        exact Option.noConfusion hg2
      | crash =>
        rw [hpo] at hg'
        have hg2 : (none : Option (Table × Obj)) = some (t, po) := hg'
        exact Option.noConfusion hg2
  · rintro ⟨obj, hl, hp, hpo⟩
    refine ⟨hl, ?_⟩
    rw [hp]
    show (match processObject ctx obj with
        | Res.ok r => some r
        | _ => none) = some (t, po)
    rw [hpo]

theorem fileLoop_all_ok (ctx : ProcCtx) (fileName : String)
    (breakOnError : Bool) (parseFunc : String → Except String Obj) :
    ∀ (lines : List String) (acc : List (String × ProcessedFile))
      (facts : List FailedFact),
      (∀ line ∈ lines, ∃ obj, parseFunc line = .ok obj ∧
        ∃ r, processObject ctx obj = .ok r) →
      fileLoop ctx fileName breakOnError parseFunc lines acc facts =
        .ok (groupResults fileName (okResultsFile ctx parseFunc lines) acc,
             facts) := by
  intro lines
  induction lines with
  | nil =>
    intro acc facts _
    simp [fileLoop, groupResults, okResultsFile]
  | cons line rest ih =>
    intro acc facts hall
    obtain ⟨obj, hparse, ⟨table, po⟩, hpo⟩ :=
      hall line (List.mem_cons_self _ _)
    have hrest : ∀ l ∈ rest, ∃ o, parseFunc l = .ok o ∧
        ∃ r, processObject ctx o = .ok r :=
      fun l hl => hall l (List.mem_cons_of_mem _ hl)
    simp only [fileLoop, hparse, hpo]
    rw [ih _ _ hrest]
    simp [okResultsFile, hparse, hpo, groupResults]

/-- C9: schema accumulation is a monotone union — in a fully successful
`ProcessObjects` call, a column name appears in the accumulated
`ProcessedFile` for table `T` exactly when some input record's table
resolves to `T` (and is non-empty) with that column among its columns
(each name therefore mapped to a type); consequently the set of column
names is the same for any permutation of the input records; and the same
union characterisation holds for the per-table map of a fully successful
`ProcessFilePayload` call. -/
theorem c9_schema_merge_monotone_union (ctx : ProcCtx) :
    (∀ (objects : List Obj) (m : List (String × ProcessedFile)),
      (∀ o ∈ objects, ∃ r, processObject ctx o = .ok r) →
      ProcessObjects ctx objects = .ok m →
      ∀ T k,
        (∃ f, pfLookup m T = some f ∧ k ∈ colNames f.dataSchema.columns) ↔
        (∃ o t fo, o ∈ objects ∧ processObject ctx o = .ok (t, fo) ∧
          t.name = T ∧ t.existsB = true ∧ k ∈ colNames t.columns)) ∧
    (∀ (objects₁ objects₂ : List Obj)
       (m₁ m₂ : List (String × ProcessedFile)),
      objects₁.Perm objects₂ →
      (∀ o ∈ objects₁, ∃ r, processObject ctx o = .ok r) →
      ProcessObjects ctx objects₁ = .ok m₁ →
      ProcessObjects ctx objects₂ = .ok m₂ →
      ∀ T k,
        (∃ f, pfLookup m₁ T = some f ∧ k ∈ colNames f.dataSchema.columns) ↔
        (∃ f, pfLookup m₂ T = some f ∧ k ∈ colNames f.dataSchema.columns)) ∧
    (∀ (fileName payload : String) (parseFunc : String → Except String Obj)
       (breakOnError : Bool) (files : List (String × ProcessedFile))
       (facts : List FailedFact),
      (∀ line ∈ (readLines payload).1, ∃ obj, parseFunc line = .ok obj ∧
        ∃ r, processObject ctx obj = .ok r) →
      ProcessFilePayload ctx fileName payload breakOnError parseFunc =
        .ok (files, facts) →
      ∀ T k,
        (∃ f, pfLookup files T = some f ∧
          k ∈ colNames f.dataSchema.columns) ↔
        (∃ line obj t fo, line ∈ (readLines payload).1 ∧
          parseFunc line = .ok obj ∧ processObject ctx obj = .ok (t, fo) ∧
          t.name = T ∧ t.existsB = true ∧ k ∈ colNames t.columns)) := by
  have main : ∀ (objects : List Obj) (m : List (String × ProcessedFile)),
      (∀ o ∈ objects, ∃ r, processObject ctx o = .ok r) →
      ProcessObjects ctx objects = .ok m →
      ∀ T k,
        (∃ f, pfLookup m T = some f ∧ k ∈ colNames f.dataSchema.columns) ↔
        (∃ o t fo, o ∈ objects ∧ processObject ctx o = .ok (t, fo) ∧
          t.name = T ∧ t.existsB = true ∧ k ∈ colNames t.columns) := by
    intro objects m hall hm T k
    unfold ProcessObjects at hm
    rw [processLoop_all_ok ctx objects [] hall] at hm
    injection hm with hm
    subst hm
    rw [groupResults_names "" (okResults ctx objects) [] T k]
    rw [or_iff_right (by
      rintro ⟨f, hf, -⟩
      exact Option.noConfusion hf :
        ¬ ∃ f, pfLookup ([] : List (String × ProcessedFile)) T = some f ∧
          k ∈ colNames f.dataSchema.columns)]
    constructor
    · rintro ⟨t, po, hmem, h1, h2, h3⟩
      obtain ⟨o, ho, hpo⟩ := (mem_okResults ctx objects t po).mp hmem
      exact ⟨o, t, po, ho, hpo, h1, h2, h3⟩
    · rintro ⟨o, t, po, ho, hpo, h1, h2, h3⟩
      exact ⟨t, po, (mem_okResults ctx objects t po).mpr ⟨o, ho, hpo⟩,
        h1, h2, h3⟩
  refine ⟨main, ?_, ?_⟩
  · intro objects₁ objects₂ m₁ m₂ hperm hall₁ hm₁ hm₂ T k
    have hall₂ : ∀ o ∈ objects₂, ∃ r, processObject ctx o = .ok r :=
      fun o ho => hall₁ o (hperm.mem_iff.mpr ho)
    rw [main objects₁ m₁ hall₁ hm₁ T k, main objects₂ m₂ hall₂ hm₂ T k]
    constructor
    · rintro ⟨o, t, fo, ho, h⟩
      exact ⟨o, t, fo, hperm.mem_iff.mp ho, h⟩
    · rintro ⟨o, t, fo, ho, h⟩
      exact ⟨o, t, fo, hperm.mem_iff.mpr ho, h⟩
  · intro fileName payload parseFunc breakOnError files facts hall hm T k
    unfold ProcessFilePayload at hm
    rw [fileLoop_all_ok ctx fileName breakOnError parseFunc
      (readLines payload).1 [] [] hall] at hm
    injection hm with hm
    have hfiles : files =
        groupResults fileName
          (okResultsFile ctx parseFunc (readLines payload).1) [] := by
      have := congrArg Prod.fst hm
      exact this.symm
    subst hfiles
    rw [groupResults_names fileName
      (okResultsFile ctx parseFunc (readLines payload).1) [] T k]
    rw [or_iff_right (by
      rintro ⟨f, hf, -⟩
      exact Option.noConfusion hf :
        ¬ ∃ f, pfLookup ([] : List (String × ProcessedFile)) T = some f ∧
          k ∈ colNames f.dataSchema.columns)]
    constructor
    · rintro ⟨t, po, hmem, h1, h2, h3⟩
      obtain ⟨line, obj, hl, hp, hpo⟩ :=
        (mem_okResultsFile ctx parseFunc (readLines payload).1 t po).mp hmem
      exact ⟨line, obj, t, po, hl, hp, hpo, h1, h2, h3⟩
    · rintro ⟨line, obj, t, po, hl, hp, hpo, h1, h2, h3⟩
      exact ⟨t, po,
        (mem_okResultsFile ctx parseFunc (readLines payload).1 t po).mpr
          ⟨line, obj, hl, hp, hpo⟩, h1, h2, h3⟩

/-- Witness: a two-record batch for the same table, one record carrying
only the timestamp column and one also carrying columns `c`, `d`, `e`,
accumulates a table whose columns include `c`; the theorem's union
characterisation exhibits the second record as its source. -/
theorem c9_schema_merge_monotone_union_witness :
    ProcessObjects wCtx [wObj, wObjCD] =
      .ok [("events_a",
        ⟨"", ⟨"events_a",
          [(timestampKey, NewColumn 1), ("c", NewColumn 5),
           ("d", NewColumn 3), ("e", NewColumn 1)], []⟩,
         [[(timestampKey, Value.str "2020")],
          [(timestampKey, Value.str "2020"), ("c", Value.int 5),
           ("d", Value.int 3), ("e", Value.str "z")]]⟩)] ∧
    (∃ f, pfLookup [("events_a",
        ⟨"", ⟨"events_a",
          [(timestampKey, NewColumn 1), ("c", NewColumn 5),
           ("d", NewColumn 3), ("e", NewColumn 1)], []⟩,
         [[(timestampKey, Value.str "2020")],
          [(timestampKey, Value.str "2020"), ("c", Value.int 5),
           ("d", Value.int 3), ("e", Value.str "z")]]⟩)] "events_a" =
        some f ∧ "c" ∈ colNames f.dataSchema.columns) := by
  have hok : ProcessObjects wCtx [wObj, wObjCD] =
      .ok [("events_a",
        ⟨"", ⟨"events_a",
          [(timestampKey, NewColumn 1), ("c", NewColumn 5),
           ("d", NewColumn 3), ("e", NewColumn 1)], []⟩,
         [[(timestampKey, Value.str "2020")],
          [(timestampKey, Value.str "2020"), ("c", Value.int 5),
           ("d", Value.int 3), ("e", Value.str "z")]]⟩)] := by rfl
  refine ⟨hok, ?_⟩
  refine ((c9_schema_merge_monotone_union wCtx).1 [wObj, wObjCD] _ ?_ hok
    "events_a" "c").mpr ?_
  · intro o ho
    rw [List.mem_cons, List.mem_singleton] at ho
    rcases ho with h | h
    · subst h
      exact ⟨(⟨"events_a", [(timestampKey, NewColumn 1)], []⟩,
              [(timestampKey, Value.str "2020")]), by rfl⟩
    · subst h
      exact ⟨(⟨"events_a",
          [(timestampKey, NewColumn 1), ("c", NewColumn 5),
           ("d", NewColumn 3), ("e", NewColumn 1)], []⟩,
          [(timestampKey, Value.str "2020"), ("c", Value.int 5),
           ("d", Value.int 3), ("e", Value.str "z")]), by rfl⟩
  · refine ⟨wObjCD,
      ⟨"events_a",
        [(timestampKey, NewColumn 1), ("c", NewColumn 5),
         ("d", NewColumn 3), ("e", NewColumn 1)], []⟩,
      [(timestampKey, Value.str "2020"), ("c", Value.int 5),
       ("d", Value.int 3), ("e", Value.str "z")],
      List.mem_cons_of_mem _ (List.mem_cons_self _ _), by rfl, rfl,
      by rfl, by decide⟩

/-!
## Event-id enrichment (claim C10)
-/

/-- C10: `EnrichWithEventId` is idempotent — a second call with the same
id leaves the object exactly as after the first; in particular an
`event_id` already present inside an `eventn_ctx` map is never overwritten,
and when `eventn_ctx` exists but is not a map the id is written under the
top-level key `eventn_ctx_event_id`. -/
theorem c10_enrich_idempotent (object : Obj) (eventId : String) :
    EnrichWithEventId (EnrichWithEventId object eventId) eventId =
      EnrichWithEventId object eventId ∧
    (∀ eventn w, lookupObj object eventnKey = some (.obj eventn) →
      lookupObj eventn eventIdKey = some w →
      EnrichWithEventId object eventId = object) ∧
    (∀ v, lookupObj object eventnKey = some v → (∀ m, v ≠ .obj m) →
      EnrichWithEventId object eventId =
        setObj object (eventnKey ++ "_" ++ eventIdKey) (.str eventId)) := by
  refine ⟨?_, ?_, ?_⟩
  · cases hv : lookupObj object eventnKey with
    | none =>
      simp [EnrichWithEventId, hv, lookupObj_setObj_self, lookupObj]
    | some v =>
      cases v with
      | obj eventn =>
        cases hw : lookupObj eventn eventIdKey with
        | none =>
          simp [EnrichWithEventId, hv, hw, lookupObj_setObj_self]
        | some w =>
          simp [EnrichWithEventId, hv, hw]
      | str s =>
        have hne : eventnKey ≠ eventnKey ++ "_" ++ eventIdKey := by decide
        simp [EnrichWithEventId, hv,
          lookupObj_setObj_ne object (eventnKey ++ "_" ++ eventIdKey)
            eventnKey (.str eventId) hne, setObj_setObj]
      | int n =>
        have hne : eventnKey ≠ eventnKey ++ "_" ++ eventIdKey := by decide
        simp [EnrichWithEventId, hv,
          lookupObj_setObj_ne object (eventnKey ++ "_" ++ eventIdKey)
            eventnKey (.str eventId) hne, setObj_setObj]
      | bool b =>
        have hne : eventnKey ≠ eventnKey ++ "_" ++ eventIdKey := by decide
        simp [EnrichWithEventId, hv,
          lookupObj_setObj_ne object (eventnKey ++ "_" ++ eventIdKey)
            eventnKey (.str eventId) hne, setObj_setObj]
      | null =>
        have hne : eventnKey ≠ eventnKey ++ "_" ++ eventIdKey := by decide
        simp [EnrichWithEventId, hv,
          lookupObj_setObj_ne object (eventnKey ++ "_" ++ eventIdKey)
            eventnKey (.str eventId) hne, setObj_setObj]
      | time t =>
        have hne : eventnKey ≠ eventnKey ++ "_" ++ eventIdKey := by decide
        simp [EnrichWithEventId, hv,
          lookupObj_setObj_ne object (eventnKey ++ "_" ++ eventIdKey)
            eventnKey (.str eventId) hne, setObj_setObj]
      | arr l =>
        have hne : eventnKey ≠ eventnKey ++ "_" ++ eventIdKey := by decide
        simp [EnrichWithEventId, hv,
          lookupObj_setObj_ne object (eventnKey ++ "_" ++ eventIdKey)
            eventnKey (.str eventId) hne, setObj_setObj]
  · intro eventn w h1 h2
    simp [EnrichWithEventId, h1, h2]
  · intro v h1 h2
    cases v with
    | obj m => exact absurd rfl (h2 m)
    | str s => simp [EnrichWithEventId, h1]
    | int n => simp [EnrichWithEventId, h1]
    | bool b => simp [EnrichWithEventId, h1]
    | null => simp [EnrichWithEventId, h1]
    | time t => simp [EnrichWithEventId, h1]
    | arr l => simp [EnrichWithEventId, h1]

/-- Witness: a record whose `eventn_ctx` map already holds an `event_id`
is returned unchanged by enrichment. -/
theorem c10_enrich_idempotent_witness :
    EnrichWithEventId
      [(eventnKey, Value.obj [(eventIdKey, Value.str "E")])] "new" =
      [(eventnKey, Value.obj [(eventIdKey, Value.str "E")])] :=
  (c10_enrich_idempotent
      [(eventnKey, Value.obj [(eventIdKey, Value.str "E")])] "new").2.1
    [(eventIdKey, Value.str "E")] (Value.str "E") (by rfl) (by rfl)

/-!
## Heap frame lemmas (claim C8)
-/

theorem take_set_of_le {α : Type} :
    ∀ (l : List α) (i n : Nat) (x : α), n ≤ i →
      (l.set i x).take n = l.take n := by
  intro l
  induction l with
  | nil => intro i n x _; simp
  | cons hd tl ih =>
    intro i n x hni
    cases i with
    | zero =>
      have hn : n = 0 := Nat.le_zero.mp hni
      subst hn
      simp
    | succ i =>
      cases n with
      | zero => simp
      | succ n =>
        simp only [List.set, List.take]
        rw [ih i n x (Nat.succ_le_succ_iff.mp hni)]

theorem heapFrame_refl (n : Nat) (h : Heap) : heapFrame n h h :=
  ⟨rfl, Nat.le_refl _⟩

theorem heapFrame_trans {n : Nat} {h1 h2 h3 : Heap}
    (a : heapFrame n h1 h2) (b : heapFrame n h2 h3) : heapFrame n h1 h3 :=
  ⟨b.1.trans a.1, a.2.trans b.2⟩

theorem heapFrame_hset (n : Nat) (h : Heap) (a : Nat) (k : String)
    (v : HVal) (ha : n ≤ a) : heapFrame n h (hset h a k v) := by
  refine ⟨take_set_of_le h a n _ ha, ?_⟩
  simp [hset]

theorem heapExtHi_refl (n : Nat) (h : Heap) : heapExtHi n h h :=
  ⟨[], by simp, by simp⟩

theorem heapExtHi_length {n : Nat} {h hp : Heap} (he : heapExtHi n h hp) :
    h.length ≤ hp.length := by
  obtain ⟨d, rfl, -⟩ := he
  simp

theorem heapExtHi_trans {n : Nat} {h1 h2 h3 : Heap}
    (a : heapExtHi n h1 h2) (b : heapExtHi n h2 h3) : heapExtHi n h1 h3 := by
  obtain ⟨d1, rfl, hd1⟩ := a
  obtain ⟨d2, rfl, hd2⟩ := b
  refine ⟨d1 ++ d2, by simp, ?_⟩
  intro cell hc
  rcases List.mem_append.mp hc with hc | hc
  · exact hd1 cell hc
  · exact hd2 cell hc

theorem heapExtHi_snoc (n : Nat) (h : Heap) (cell : HObj)
    (hc : cellHi n cell) : heapExtHi n h (h ++ [cell]) := by
  refine ⟨[cell], rfl, ?_⟩
  intro c hcm
  rw [List.mem_singleton] at hcm
  subst hcm
  exact hc

theorem heapExtHi_mono {n m : Nat} {h hp : Heap} (hnm : n ≤ m)
    (he : heapExtHi m h hp) : heapExtHi n h hp := by
  obtain ⟨d, rfl, hd⟩ := he
  exact ⟨d, rfl, fun cell hc r hr => hnm.trans (hd cell hc r hr)⟩

theorem heapFrame_of_extHi {n : Nat} {h hp : Heap} (hn : n ≤ h.length)
    (he : heapExtHi n h hp) : heapFrame n h hp := by
  obtain ⟨d, rfl, -⟩ := he
  exact ⟨List.take_append_of_le_length hn, by simp⟩

theorem reachHi_mono {h : Heap} {a n m : Nat} (hnm : n ≤ m)
    (hr : ReachHi h a m) : ReachHi h a n :=
  fun b hb => hnm.trans (hr b hb)

theorem copyEntries_spec (n : Nat) (copyOne : Heap → Nat → Heap × Nat)
    (hone : ∀ (h : Heap) (a : Nat), n ≤ h.length →
      heapExtHi n h (copyOne h a).1 ∧ n ≤ (copyOne h a).2) :
    ∀ (entries : HObj) (h : Heap), n ≤ h.length →
      heapExtHi n h (copyEntries copyOne h entries).1 ∧
        cellHi n (copyEntries copyOne h entries).2 := by
  intro entries
  induction entries with
  | nil =>
    intro h hn
    exact ⟨heapExtHi_refl n h, by simp [copyEntries, cellHi, entryRefs]⟩
  | cons kv rest ih =>
    obtain ⟨k, v⟩ := kv
    intro h hn
    cases v with
    | ref r =>
      obtain ⟨he1, ha1⟩ := hone h r hn
      have hlen1 : n ≤ (copyOne h r).1.length :=
        hn.trans (heapExtHi_length he1)
      obtain ⟨he2, hc2⟩ := ih (copyOne h r).1 hlen1
      constructor
      · simp only [copyEntries]
        exact heapExtHi_trans he1 he2
      · simp only [copyEntries]
        intro r' hr'
        simp only [entryRefs, List.filterMap_cons] at hr'
        rcases List.mem_cons.mp hr' with h1 | h1
        · exact h1 ▸ ha1
        · exact hc2 r' h1
    | str s =>
      obtain ⟨he2, hc2⟩ := ih h hn
      refine ⟨by simp only [copyEntries]; exact he2, ?_⟩
      simp only [copyEntries]
      intro r' hr'
      simp only [entryRefs, List.filterMap_cons] at hr'
      exact hc2 r' hr'
    | int i =>
      obtain ⟨he2, hc2⟩ := ih h hn
      refine ⟨by simp only [copyEntries]; exact he2, ?_⟩
      simp only [copyEntries]
      intro r' hr'
      simp only [entryRefs, List.filterMap_cons] at hr'
      exact hc2 r' hr'
    | bool b =>
      obtain ⟨he2, hc2⟩ := ih h hn
      refine ⟨by simp only [copyEntries]; exact he2, ?_⟩
      simp only [copyEntries]
      intro r' hr'
      simp only [entryRefs, List.filterMap_cons] at hr'
      exact hc2 r' hr'
    | null =>
      obtain ⟨he2, hc2⟩ := ih h hn
      refine ⟨by simp only [copyEntries]; exact he2, ?_⟩
      simp only [copyEntries]
      intro r' hr'
      simp only [entryRefs, List.filterMap_cons] at hr'
      exact hc2 r' hr'
    | time t =>
      obtain ⟨he2, hc2⟩ := ih h hn
      refine ⟨by simp only [copyEntries]; exact he2, ?_⟩
      simp only [copyEntries]
      intro r' hr'
      simp only [entryRefs, List.filterMap_cons] at hr'
      exact hc2 r' hr'

theorem copyMapF_spec (n : Nat) :
    ∀ (fuel : Nat) (h : Heap) (a : Nat), n ≤ h.length →
      heapExtHi n h (copyMapF fuel h a).1 ∧ n ≤ (copyMapF fuel h a).2 := by
  intro fuel
  induction fuel with
  | zero =>
    intro h a hn
    constructor
    · refine ⟨[[]], rfl, ?_⟩
      intro cell hc
      rw [List.mem_singleton] at hc
      subst hc
      simp [cellHi, entryRefs]
    · exact hn
  | succ fuel ih =>
    intro h a hn
    obtain ⟨he, hc⟩ :=
      copyEntries_spec n (copyMapF fuel) (fun h' a' hn' => ih h' a' hn')
        (hcell h a) h hn
    constructor
    · simp only [copyMapF]
      exact heapExtHi_trans he
        (heapExtHi_snoc n (copyEntries (copyMapF fuel) h (hcell h a)).1
          (copyEntries (copyMapF fuel) h (hcell h a)).2 hc)
    · simp only [copyMapF]
      exact hn.trans (heapExtHi_length he)

theorem reachHi_of_extHi (h : Heap) (hp : Heap) (a : Nat)
    (hext : heapExtHi h.length h hp) (ha : h.length ≤ a) :
    ReachHi hp a h.length := by
  intro b hreach
  induction hreach with
  | refl => exact ha
  | step hr hc ihb =>
    rename_i y z
    obtain ⟨d, hd, hcells⟩ := hext
    subst hd
    by_cases hy : y < (h ++ d).length
    · have hy2 : y - h.length < d.length := by
        simp only [List.length_append] at hy
        omega
      have hcy : hcell (h ++ d) y = d[y - h.length] := by
        rw [hcell, List.getD_eq_getElem?_getD,
          List.getElem?_append_right ihb, List.getElem?_eq_getElem hy2]
        rfl
      rw [hcy] at hc
      exact hcells _ (List.getElem_mem hy2) z hc
    · have hempty : hcell (h ++ d) y = [] := by
        rw [hcell, List.getD_eq_getElem?_getD,
          List.getElem?_eq_none (by omega)]
        rfl
      rw [hempty] at hc
      simp [entryRefs] at hc

theorem copyMapH_spec (h : Heap) (a : Nat) :
    heapExtHi h.length h (copyMapH h a).1 ∧
      h.length ≤ (copyMapH h a).2 ∧
      ReachHi (copyMapH h a).1 (copyMapH h a).2 h.length := by
  obtain ⟨he, ha⟩ :=
    copyMapF_spec h.length (h.length + 1) h a (Nat.le_refl _)
  exact ⟨he, ha, reachHi_of_extHi h _ _ he ha⟩

theorem runRulesH_frame :
    ∀ (rules : List (String × (Heap → Nat → Heap × Option String)))
      (h : Heap) (a n : Nat),
      (∀ r ∈ rules, RuleFrameH r.2) → n ≤ h.length → ReachHi h a n →
      heapFrame n h (runRulesH rules h a).1 ∧
        ReachHi (runRulesH rules h a).1 a n := by
  intro rules
  induction rules with
  | nil =>
    intro h a n _ _ hre
    exact ⟨heapFrame_refl n h, hre⟩
  | cons rule rest ih =>
    intro h a n hr hn hre
    obtain ⟨name, r⟩ := rule
    obtain ⟨hfr, hre1⟩ := hr (name, r) (List.mem_cons_self _ _) h a n hn hre
    cases hp2 : (r h a).2 with
    | some e =>
      constructor
      · simp only [runRulesH, hp2]
        exact hfr
      · simp only [runRulesH, hp2]
        exact hre1
    | none =>
      have hlen : n ≤ (r h a).1.length := hn.trans hfr.2
      obtain ⟨hfr2, hre2⟩ := ih (r h a).1 a n
        (fun q hq => hr q (List.mem_cons_of_mem _ hq)) hlen hre1
      constructor
      · simp only [runRulesH, hp2]
        exact heapFrame_trans hfr hfr2
      · simp only [runRulesH, hp2]
        exact hre2

theorem tableNameExtractH_frame (ctx : HCtx) (h : Heap) (f n : Nat)
    (hf : n ≤ f) : heapFrame n h (tableNameExtractH ctx h f).1 := by
  cases hlk : hlookup h f timestampKey with
  | none =>
    simp only [tableNameExtractH, hlk]
    exact heapFrame_refl n h
  | some ts =>
    cases ts with
    | str s =>
      cases hp : ctx.timeParse s with
      | error e =>
        simp only [tableNameExtractH, hlk, hp]
        exact heapFrame_refl n h
      | ok t =>
        cases he : ctx.tmplExecH (hset h f timestampKey (.time t)) f with
        | error e =>
          simp only [tableNameExtractH, hlk, hp, he]
          exact heapFrame_hset n h f timestampKey _ hf
        | ok rendered =>
          simp only [tableNameExtractH, hlk, hp, he]
          exact heapFrame_trans (heapFrame_hset n h f timestampKey _ hf)
            (heapFrame_hset n _ f timestampKey _ hf)
    | int i =>
      simp only [tableNameExtractH, hlk]
      exact heapFrame_refl n h
    | bool b =>
      simp only [tableNameExtractH, hlk]
      exact heapFrame_refl n h
    | null =>
      simp only [tableNameExtractH, hlk]
      exact heapFrame_refl n h
    | time t =>
      simp only [tableNameExtractH, hlk]
      exact heapFrame_refl n h
    | ref r =>
      simp only [tableNameExtractH, hlk]
      exact heapFrame_refl n h

theorem processFieldH_frame (ctx : HCtx) (f : Nat) (k : String) (v : HVal)
    (h : Heap) (n : Nat) (hf : n ≤ f) :
    heapFrame n h (processFieldH ctx f k v h).1 := by
  have h0 := heapFrame_hset n h f k (ctx.reformatH v) hf
  cases htv : ctx.typeFromValueH (ctx.reformatH v) with
  | error e =>
    simp only [processFieldH, htv]
    exact h0
  | ok natural =>
    cases hdef : lookupType ctx.defaultTypes k with
    | none =>
      cases hcast : lookupType ctx.typeCasts k with
      | none =>
        simp only [processFieldH, htv, hdef, hcast]
        exact h0
      | some toType =>
        cases hcv : ctx.convertH toType (ctx.reformatH v) with
        | error e =>
          simp only [processFieldH, htv, hdef, hcast, hcv]
          exact h0
        | ok c =>
          simp only [processFieldH, htv, hdef, hcast, hcv]
          exact heapFrame_trans h0 (heapFrame_hset n _ f k c hf)
    | some d =>
      cases hdc : ctx.convertH d (ctx.reformatH v) with
      | error e =>
        simp only [processFieldH, htv, hdef, hdc]
        exact h0
      | ok cD =>
        have h1 := heapFrame_trans h0
          (heapFrame_hset n (hset h f k (ctx.reformatH v)) f k cD hf)
        cases hcast : lookupType ctx.typeCasts k with
        | none =>
          simp only [processFieldH, htv, hdef, hdc, hcast]
          exact h1
        | some toType =>
          cases hcv : ctx.convertH toType (ctx.reformatH v) with
          | error e =>
            simp only [processFieldH, htv, hdef, hdc, hcast, hcv]
            exact h1
          | ok c =>
            simp only [processFieldH, htv, hdef, hdc, hcast, hcv]
            exact heapFrame_trans h1 (heapFrame_hset n _ f k c hf)

theorem processFieldsLoopH_frame (ctx : HCtx) (f : Nat) :
    ∀ (entries : List (String × HVal)) (h : Heap) (n : Nat), n ≤ f →
      heapFrame n h (processFieldsLoopH ctx f entries h).1 := by
  intro entries
  induction entries with
  | nil =>
    intro h n _
    exact heapFrame_refl n h
  | cons kv rest ih =>
    obtain ⟨k, v⟩ := kv
    intro h n hf
    have h1 := processFieldH_frame ctx f k v h n hf
    cases hpf : processFieldH ctx f k v h with
    | mk h2 r2 =>
      rw [hpf] at h1
      cases r2 with
      | error e =>
        simp only [processFieldsLoopH, hpf]
        exact h1
      | ok t2 =>
        have h3 := ih h2 n hf
        cases hloop : processFieldsLoopH ctx f rest h2 with
        | mk h4 r4 =>
          rw [hloop] at h3
          cases r4 with
          | error e =>
            simp only [processFieldsLoopH, hpf, hloop]
            exact heapFrame_trans h1 h3
          | ok cols =>
            simp only [processFieldsLoopH, hpf, hloop]
            exact heapFrame_trans h1 h3

theorem processObjectH_frame (ctx : HCtx)
    (hrules : ∀ r ∈ ctx.rulesH, RuleFrameH r.2)
    (hmap : StageFrameH ctx.mapperH) (hflat : StageFrameH ctx.flattenH) :
    ∀ (h : Heap) (o n : Nat), n ≤ h.length →
      heapFrame n h (processObjectH ctx h o).1 := by
  intro h o n hn
  obtain ⟨hext, haddr, hreach0⟩ := copyMapH_spec h o
  have hf1 : heapFrame n h (copyMapH h o).1 :=
    heapFrame_of_extHi hn (heapExtHi_mono hn hext)
  have hre1 : ReachHi (copyMapH h o).1 (copyMapH h o).2 n :=
    reachHi_mono hn hreach0
  have hlen1 : n ≤ (copyMapH h o).1.length := hn.trans hf1.2
  obtain ⟨hf2, hre2⟩ := runRulesH_frame ctx.rulesH (copyMapH h o).1
    (copyMapH h o).2 n hrules hlen1 hre1
  cases hcm : copyMapH h o with
  | mk h1 c =>
    rw [hcm] at hf1 hre1 hf2 hre2
    cases hrr : runRulesH ctx.rulesH h1 c with
    | mk h2 r2 =>
      rw [hrr] at hf2 hre2
      cases r2 with
      | some p =>
        obtain ⟨nm, e⟩ := p
        simp only [processObjectH, hcm, hrr]
        exact heapFrame_trans hf1 hf2
      | none =>
        have hlen2 : n ≤ h2.length := hn.trans (heapFrame_trans hf1 hf2).2
        obtain ⟨hfm, hrem⟩ := hmap h2 c n hlen2 hre2
        cases hmp : ctx.mapperH h2 c with
        | mk h3 m3 =>
          rw [hmp] at hfm hrem
          cases m3 with
          | error e =>
            simp only [processObjectH, hcm, hrr, hmp]
            exact heapFrame_trans (heapFrame_trans hf1 hf2) hfm
          | ok mapped =>
            have hre3 : ReachHi h3 mapped n := hrem mapped rfl
            have hlen3 : n ≤ h3.length := hlen2.trans hfm.2
            obtain ⟨hff, href⟩ := hflat h3 mapped n hlen3 hre3
            cases hfl : ctx.flattenH h3 mapped with
            | mk h4 f4 =>
              rw [hfl] at hff href
              cases f4 with
              | error e =>
                simp only [processObjectH, hcm, hrr, hmp, hfl]
                exact heapFrame_trans
                  (heapFrame_trans (heapFrame_trans hf1 hf2) hfm) hff
              | ok flat =>
                have hre4 : ReachHi h4 flat n := href flat rfl
                have hnf : n ≤ flat := hre4 flat (Reach.refl flat)
                have hfx := tableNameExtractH_frame ctx h4 flat n hnf
                have hframe4 : heapFrame n h h4 :=
                  heapFrame_trans
                    (heapFrame_trans (heapFrame_trans hf1 hf2) hfm) hff
                cases hex : tableNameExtractH ctx h4 flat with
                | mk h5 r5 =>
                  rw [hex] at hfx
                  have hframe5 : heapFrame n h h5 :=
                    heapFrame_trans hframe4 hfx
                  cases r5 with
                  | crash =>
                    simp only [processObjectH, hcm, hrr, hmp, hfl, hex]
                    exact hframe5
                  | err e =>
                    simp only [processObjectH, hcm, hrr, hmp, hfl, hex]
                    exact hframe5
                  | ok tableName =>
                    have hlp :=
                      processFieldsLoopH_frame ctx flat (hcell h5 flat) h5
                        n hnf
                    by_cases hname : tableName = ""
                    · simp only [processObjectH, hcm, hrr, hmp, hfl, hex]
                      rw [if_pos hname]
                      exact hframe5
                    · simp only [processObjectH, hcm, hrr, hmp, hfl, hex]
                      rw [if_neg hname]
                      cases hloop :
                          processFieldsLoopH ctx flat (hcell h5 flat) h5 with
                      | mk h6 r6 =>
                        rw [hloop] at hlp
                        cases r6 with
                        | error e =>
                          simp only [hloop]
                          exact heapFrame_trans hframe5 hlp
                        | ok cols =>
                          simp only [hloop]
                          exact heapFrame_trans hframe5 hlp

theorem processLoopH_frame (ctx : HCtx)
    (hrules : ∀ r ∈ ctx.rulesH, RuleFrameH r.2)
    (hmap : StageFrameH ctx.mapperH) (hflat : StageFrameH ctx.flattenH) :
    ∀ (objects : List Nat) (h : Heap)
      (acc : List (String × ProcessedFileH)) (n : Nat), n ≤ h.length →
      heapFrame n h (processLoopH ctx objects h acc).1 := by
  intro objects
  induction objects with
  | nil =>
    intro h acc n _
    exact heapFrame_refl n h
  | cons o rest ih =>
    intro h acc n hn
    have h1 := processObjectH_frame ctx hrules hmap hflat h o n hn
    cases hpo : processObjectH ctx h o with
    | mk h2 r2 =>
      rw [hpo] at h1
      cases r2 with
      | crash =>
        simp only [processLoopH, hpo]
        exact h1
      | err e =>
        simp only [processLoopH, hpo]
        exact h1
      | ok p =>
        obtain ⟨table, po⟩ := p
        simp only [processLoopH, hpo]
        exact heapFrame_trans h1 (ih h2 _ n (hn.trans h1.2))

theorem fileLoopH_frame (ctx : HCtx)
    (hrules : ∀ r ∈ ctx.rulesH, RuleFrameH r.2)
    (hmap : StageFrameH ctx.mapperH) (hflat : StageFrameH ctx.flattenH)
    (fileName : String) (breakOnError : Bool)
    (parseH : Heap → String → Heap × Except String Nat)
    (hparse : ParseFrameH parseH) :
    ∀ (lines : List String) (h : Heap)
      (acc : List (String × ProcessedFileH)) (facts : List FailedFact)
      (n : Nat), n ≤ h.length →
      heapFrame n h
        (fileLoopH ctx fileName breakOnError parseH lines h acc facts).1 := by
  intro lines
  induction lines with
  | nil =>
    intro h acc facts n _
    exact heapFrame_refl n h
  | cons line rest ih =>
    intro h acc facts n hn
    have hp1 := hparse h line n hn
    cases hps : parseH h line with
    | mk h1 r1 =>
      rw [hps] at hp1
      cases r1 with
      | error e =>
        simp only [fileLoopH, hps]
        exact hp1
      | ok object =>
        have h2f := processObjectH_frame ctx hrules hmap hflat h1 object n
          (hn.trans hp1.2)
        cases hpo : processObjectH ctx h1 object with
        | mk h2 r2 =>
          rw [hpo] at h2f
          have h12 : heapFrame n h h2 := heapFrame_trans hp1 h2f
          cases r2 with
          | crash =>
            simp only [fileLoopH, hps, hpo]
            exact h12
          | err e =>
            cases breakOnError with
            | true =>
              simp only [fileLoopH, hps, hpo]
              exact h12
            | false =>
              simp only [fileLoopH, hps, hpo]
              exact heapFrame_trans h12
                (ih h2 acc _ n (hn.trans h12.2))
          | ok p =>
            obtain ⟨table, po⟩ := p
            simp only [fileLoopH, hps, hpo]
            exact heapFrame_trans h12 (ih h2 _ facts n (hn.trans h12.2))

/-- C8: the per-object pipeline never mutates the caller-supplied input
record.  Under the frame contracts of the injected collaborators (each
enrichment rule, the field mapper and the flattener mutate or allocate
only within the object graph handed to them, and the parse function only
allocates), `processObject` — whose own writes are the timestamp
substitution and the typecast-loop value replacements, all performed on
the flattened descendant of the deep copy — leaves every pre-existing heap
cell untouched in every outcome, and therefore the caller's record and all
of its nested mappings are bit-identical after the call; the same holds
across `ProcessObjects` and `ProcessFilePayload` (`ProcessFact` is
`processObject` itself). -/
theorem c8_input_record_never_mutated (ctx : HCtx)
    (hrules : ∀ r ∈ ctx.rulesH, RuleFrameH r.2)
    (hmap : StageFrameH ctx.mapperH) (hflat : StageFrameH ctx.flattenH) :
    (∀ (h : Heap) (o : Nat),
      ((processObjectH ctx h o).1).take h.length = h) ∧
    (∀ (h : Heap) (objects : List Nat),
      ((ProcessObjectsH ctx h objects).1).take h.length = h) ∧
    (∀ (h : Heap) (fileName payload : String) (breakOnError : Bool)
       (parseH : Heap → String → Heap × Except String Nat),
      ParseFrameH parseH →
      ((ProcessFilePayloadH ctx fileName payload breakOnError parseH
          h).1).take h.length = h) := by
  refine ⟨?_, ?_, ?_⟩
  · intro h o
    have hfr := processObjectH_frame ctx hrules hmap hflat h o h.length
      (Nat.le_refl _)
    rw [hfr.1, List.take_length]
  · intro h objects
    have hfr := processLoopH_frame ctx hrules hmap hflat objects h []
      h.length (Nat.le_refl _)
    rw [ProcessObjectsH, hfr.1, List.take_length]
  · intro h fileName payload breakOnError parseH hparse
    have hfr := fileLoopH_frame ctx hrules hmap hflat fileName breakOnError
      parseH hparse (readLines payload).1 h [] [] h.length (Nat.le_refl _)
    rw [ProcessFilePayloadH, hfr.1, List.take_length]

/-- Witness: on the concrete two-cell heap `hHeap0`, with the trivial
heap collaborators, processing the record at address 0 leaves the first
two cells (the input record and its nested map) exactly as they were. -/
theorem c8_input_record_never_mutated_witness :
    ((processObjectH hTriv hHeap0 0).1).take hHeap0.length = hHeap0 :=
  (c8_input_record_never_mutated hTriv
    (by intro r hr; simp [hTriv] at hr)
    (by
      intro h a n hn hre
      exact ⟨heapFrame_refl n h, fun a' ha' => by
        have : a = a' := by
          simpa [hTriv] using ha'
        exact this ▸ hre⟩)
    (by
      intro h a n hn hre
      exact ⟨heapFrame_refl n h, fun a' ha' => by
        have : a = a' := by
          simpa [hTriv] using ha'
        exact this ▸ hre⟩)).1 hHeap0 0

end EventNative
